import Mathlib

/-!
Verification of the pr-reviewer-stats ingestion-and-aggregation pipeline.

The development shallowly embeds the algorithmic core of the repository:

* the CSV record codec: the encoder in the fetcher (fetchPRData, CSV
  generation) and the decoder parseCSV in src/utils/dataProcessing.ts;
* the time-series aggregators processData / processImpactData with their
  day-gap filling, calculateMovingAverage, getStats / getImpactStats,
  and removeOutliers, all from src/utils/dataProcessing.ts;
* the pagination loop and the change-stats estimator getPRChangeStats
  from the fetcher.

Modelling conventions:

* TypeScript strings are modelled as lists of characters (List Char);
  numbers that the code only ever uses as integers are modelled as Int
  or Nat; averages (which the code renders with toFixed) are modelled as
  exact rationals, abstracting the final display formatting.
* Calendar dates: the analytics code stores dates as ISO YYYY-MM-DD
  strings, whose lexicographic order coincides with calendar order, and
  steps them with setDate/toISOString, which is the successor function
  on calendar days.  The analytics embedding therefore models a date as
  its (UTC) day number (a Nat); stepping a date by one day is Nat
  successor and comparing date strings is Nat comparison.
* JavaScript objects used as string-keyed maps are modelled as
  association lists in key-insertion order, matching JS enumeration
  order for non-index keys; JS stable Array.prototype.sort is modelled
  by insertion sort, which is stable.
* Network responses consumed by the fetcher are modelled as explicit
  input data: an Option wraps each fetch (none = failed response), and
  optional JSON fields are Option fields.
-/

namespace PRStats

/-! ### Decimal and integer rendering (string interpolation of numbers) -/

/-- Fuel-driven decimal rendering of a natural number; fuel at least n+1
renders the standard base-10 numeral, least significant digit last. -/
def natToCharsAux : Nat → Nat → List Char
  | 0, _ => []
  | fuel + 1, n =>
      if n < 10 then [Nat.digitChar n]
      else natToCharsAux fuel (n / 10) ++ [Nat.digitChar (n % 10)]

/-- Decimal numeral of a natural number, as produced by JS template
interpolation of a non-negative integer. -/
def natToChars (n : Nat) : List Char := natToCharsAux (n + 1) n

/-- Decimal numeral of an integer, as produced by JS template
interpolation of an integral number. -/
def intChars (k : Int) : List Char :=
  if k < 0 then '-' :: natToChars k.natAbs else natToChars k.natAbs

/-- The ten decimal digit characters. -/
def decDigits : List Char := ['0', '1', '2', '3', '4', '5', '6', '7', '8', '9']

/-! ### JS string primitives used by parseCSV -/

/-- Whitespace recognised by String.prototype.trim (ASCII part; the
encoded CSV text never begins or ends with any whitespace, so the
exotic Unicode space code points never matter here). -/
def jsIsSpace (c : Char) : Bool :=
  c = ' ' || c = '\t' || c = '\n' || c = '\r' || c = '\x0b' || c = '\x0c'

/-- String.prototype.trim. -/
def trimChars (s : List Char) : List Char :=
  ((s.dropWhile jsIsSpace).reverse.dropWhile jsIsSpace).reverse

/-- String.prototype.split on the newline character: splits into the
list of newline-free segments; the empty string yields one empty
segment, as in JS. -/
def splitNLCons (c : Char) : List (List Char) → List (List Char)
  | g :: gs => if c = '\n' then [] :: g :: gs else (c :: g) :: gs
  | [] => [[c]]

def splitNL : List Char → List (List Char)
  | [] => [[]]
  | c :: rest => splitNLCons c (splitNL rest)

/-- The quote-aware field splitter of parseCSV: walks the line one
character at a time, toggling the in-quotes flag on every double quote
(which is itself dropped), splitting on commas only outside quotes. -/
def splitFieldsAux : List Char → List Char → Bool → List (List Char)
  | [], cur, _ => [cur]
  | c :: rest, cur, inQ =>
      if c = '"' then splitFieldsAux rest cur (!inQ)
      else if c = ',' && !inQ then cur :: splitFieldsAux rest [] inQ
      else splitFieldsAux rest (cur ++ [c]) inQ

/-- Field list of one CSV line, per parseCSV's character scan. -/
def parseLine (line : List Char) : List (List Char) := splitFieldsAux line [] false

/-! ### JS parseInt -/

/-- Numeric value of a decimal digit character. -/
def digitVal (c : Char) : Nat := c.toNat - '0'.toNat

/-- Value of a list of decimal digit characters, most significant first. -/
def digitsToNat (ds : List Char) : Nat := ds.foldl (fun a c => a * 10 + digitVal c) 0

/-- Longest leading run of decimal digits. -/
def leadingDigits (s : List Char) : List Char := s.takeWhile Char.isDigit

/-- parseInt's decimal digit scan: value of the longest leading digit
run, none when there is no leading digit. -/
def decValue (s : List Char) : Option Nat :=
  let ds := leadingDigits s
  if ds.isEmpty then none else some (digitsToNat ds)

/-- Numeric value of a hexadecimal digit character. -/
def hexDigitVal (c : Char) : Nat :=
  if c.isDigit then c.toNat - '0'.toNat
  else if 'a' ≤ c && c ≤ 'f' then c.toNat - 'a'.toNat + 10
  else c.toNat - 'A'.toNat + 10

/-- Hexadecimal digit character. -/
def isHexDigitChar (c : Char) : Bool :=
  c.isDigit || ('a' ≤ c && c ≤ 'f') || ('A' ≤ c && c ≤ 'F')

/-- parseInt's hexadecimal digit scan, used after a 0x or 0X marker. -/
def hexValue (s : List Char) : Option Nat :=
  let ds := s.takeWhile isHexDigitChar
  if ds.isEmpty then none
  else some (ds.foldl (fun a c => a * 16 + hexDigitVal c) 0)

/-- Magnitude scan of parseInt with unspecified radix: a leading 0x/0X
selects hexadecimal, otherwise decimal. -/
def natValueJs (s : List Char) : Option Nat :=
  match s with
  | a :: c :: rest =>
      if a = '0' && (c = 'x' || c = 'X') then hexValue rest
      else decValue (a :: c :: rest)
  | t => decValue t

/-- Sign-and-magnitude part of parseInt, applied after whitespace
skipping. -/
def jsParseIntCore : List Char → Option Int
  | [] => none
  | c :: rest =>
      if c = '-' then (natValueJs rest).map (fun n => -(n : Int))
      else if c = '+' then (natValueJs rest).map (fun n => (n : Int))
      else (natValueJs (c :: rest)).map (fun n => (n : Int))

/-- JS parseInt(s) with unspecified radix: skip leading whitespace, read
an optional sign, then the longest well-formed numeral; none models NaN. -/
def jsParseInt (s : List Char) : Option Int :=
  jsParseIntCore (s.dropWhile jsIsSpace)

/-- The idiom parseInt(v) || 0 of parseCSV: NaN (and 0 itself) collapse
to 0. -/
def jsParseIntOr0 (s : List Char) : Int := (jsParseInt s).getD 0

/-! ### The CSV record and codec -/

/-- The canonical pull-request record at the serialization boundary:
exactly the PRRecord interface, with the string-typed fields kept as raw
text.  Numeric fields are Int because parseCSV produces whatever
parseInt returns (always an integer, 0 on failure). -/
structure CSVRecord where
  author : List Char
  authorEmail : List Char
  project : List Char
  repository : List Char
  closedDate : List Char
  prId : Int
  title : List Char
  linesAdded : Int
  linesDeleted : Int
deriving DecidableEq

instance : Inhabited CSVRecord :=
  ⟨⟨[], [], [], [], [], 0, [], 0, 0⟩⟩

/-- The CSV header line written by the fetcher. -/
def headerChars : List Char :=
  ("Author,AuthorEmail,Project,Repository,ClosedDate,PRId,Title,LinesAdded,LinesDeleted").data

/-- r.title.replace of every double quote by a doubled double quote. -/
def escapeQuotes : List Char → List Char
  | [] => []
  | c :: rest =>
      if c = '"' then '"' :: '"' :: escapeQuotes rest else c :: escapeQuotes rest

/-- The escapedTitle of the fetcher: the title wrapped in double quotes
with internal double quotes doubled. -/
def quoteTitle (t : List Char) : List Char := '"' :: (escapeQuotes t ++ ['"'])

/-- One CSV data line of the fetcher's encoder: the nine fields joined
by commas, only the title quoted. -/
def encodeRecord (r : CSVRecord) : List Char :=
  r.author ++ ',' :: r.authorEmail ++ ',' :: r.project ++ ',' :: r.repository ++
    ',' :: r.closedDate ++ ',' :: intChars r.prId ++ ',' :: quoteTitle r.title ++
    ',' :: intChars r.linesAdded ++ ',' :: intChars r.linesDeleted

/-- Array.prototype.join with a newline separator. -/
def joinNL : List (List Char) → List Char
  | [] => []
  | [l] => l
  | l :: l2 :: ls => l ++ '\n' :: joinNL (l2 :: ls)

/-- The fetcher's CSV text: header line then one line per record. -/
def encodeCSV (rs : List CSVRecord) : List Char :=
  joinNL (headerChars :: rs.map encodeRecord)

/-- values[i] of the decoder, the empty string when the column is
missing (undefined collapses to the defaults the decoder applies). -/
def fieldOrEmpty (vs : List (List Char)) (i : Nat) : List Char := vs.getD i []

/-- Record assembled by parseCSV from the field values of one line. -/
def recordOfValues (vs : List (List Char)) : CSVRecord where
  author := fieldOrEmpty vs 0
  authorEmail := fieldOrEmpty vs 1
  project := fieldOrEmpty vs 2
  repository := fieldOrEmpty vs 3
  closedDate := fieldOrEmpty vs 4
  prId := jsParseIntOr0 (fieldOrEmpty vs 5)
  title := fieldOrEmpty vs 6
  linesAdded := jsParseIntOr0 (fieldOrEmpty vs 7)
  linesDeleted := jsParseIntOr0 (fieldOrEmpty vs 8)

/-- One loop iteration of parseCSV: split the line quote-aware and keep
it only when it has at least five fields. -/
def parseCSVLine (line : List Char) : Option CSVRecord :=
  let values := parseLine line
  if 5 ≤ values.length then some (recordOfValues values) else none

/-- parseCSV of src/utils/dataProcessing.ts: trim the text, split into
lines, skip the header, split each line quote-aware, and keep every
line with at least five fields. -/
def parseCSV (text : List Char) : List CSVRecord :=
  let lines := splitNL (trimChars text)
  (lines.drop 1).filterMap parseCSVLine

/-! ### Well-formedness of records per the data model (section 3) -/

/-- A field other than the title: contains no separator, no quote and no
newline. -/
def plainField (s : List Char) : Bool :=
  s.all (fun c => !(c = ',' || c = '"' || c = '\n'))

/-- A title as constrained by the amended round-trip statement: free of
double quotes and newlines (commas are allowed). -/
def quoteFreeTitle (s : List Char) : Bool :=
  s.all (fun c => !(c = '"' || c = '\n'))

/-- Record whose fields satisfy the amended section-3 constraints. -/
def wellFormed (r : CSVRecord) : Bool :=
  plainField r.author && plainField r.authorEmail && plainField r.project &&
    plainField r.repository && plainField r.closedDate && quoteFreeTitle r.title

/-! ### The analytics record and JS-object model -/

/-- PRRecord as consumed by the analytics functions.  The closedDate is
abstracted to its day number: ISO YYYY-MM-DD strings compare exactly as
their day numbers, and the gap-fill loop's setDate/toISOString step is
the successor on day numbers (see the module docstring). -/
structure PRRecord where
  author : List Char
  authorEmail : List Char
  project : List Char
  repository : List Char
  closedDate : Nat
  prId : Int
  title : List Char
  linesAdded : Int
  linesDeleted : Int
deriving DecidableEq

instance : Inhabited PRRecord :=
  ⟨⟨[], [], [], [], 0, 0, [], 0, 0⟩⟩

/-- Lookup in a JS object modelled as an association list in
key-insertion order. -/
def alGet {K V : Type} [DecidableEq K] (m : List (K × V)) (k : K) : Option V :=
  match m with
  | [] => none
  | (k1, v) :: rest => if k1 = k then some v else alGet rest k

/-- The JS object update idiom (create the property with a default when
absent, then modify it): a new key is appended at the end, matching JS
property creation order. -/
def alUpdate {K V : Type} [DecidableEq K] (m : List (K × V)) (k : K) (v0 : V)
    (f : V → V) : List (K × V) :=
  match m with
  | [] => [(k, f v0)]
  | (k1, v) :: rest =>
      if k1 = k then (k1, f v) :: rest else (k1, v) :: alUpdate rest k v0 f

/-- Object.keys. -/
def alKeys {K V : Type} (m : List (K × V)) : List K := m.map Prod.fst

/-- Lookup with a default. -/
def alGetD {K V : Type} [DecidableEq K] (m : List (K × V)) (k : K) (d : V) : V :=
  (alGet m k).getD d

/-- Per-day velocity bucket of byDay: the running total plus the
per-author counts stored on the same object. -/
structure DayCount where
  total : Nat
  perAuthor : List (List Char × Nat)
deriving DecidableEq

def emptyDayCount : DayCount := { total := 0, perAuthor := [] }

instance : Inhabited DayCount := ⟨emptyDayCount⟩

/-- State built by the record loop of processData. -/
structure VelocityAcc where
  byDay : List (Nat × DayCount)
  byAuthor : List (List Char × Nat)
  byProject : List (List Char × Nat)
  authors : List (List Char)
deriving DecidableEq

/-- One iteration of processData's record loop. -/
def velocityStep (acc : VelocityAcc) (r : PRRecord) : VelocityAcc where
  byDay := alUpdate acc.byDay r.closedDate emptyDayCount (fun b =>
    { total := b.total + 1,
      perAuthor := alUpdate b.perAuthor r.author 0 (fun n => n + 1) })
  byAuthor := alUpdate acc.byAuthor r.author 0 (fun n => n + 1)
  byProject := alUpdate acc.byProject r.project 0 (fun n => n + 1)
  authors := if r.author ∈ acc.authors then acc.authors else acc.authors ++ [r.author]

/-- The gap-fill loop shared by processData and processImpactData: walk
every day from lo to hi inclusive and append a zero bucket for each day
missing from byDay. -/
def fillDays {V : Type} (zero : V) (m : List (Nat × V)) (lo hi : Nat) : List (Nat × V) :=
  (List.range' lo (hi + 1 - lo)).foldl
    (fun acc d => if (alGet acc d).isSome then acc else acc ++ [(d, zero)]) m

/-- The whole gap-fill step of both aggregators: sort the observed days,
and when more than one distinct day exists fill every day between the
first and the last. -/
def filledOf {V : Type} (zero : V) (m : List (Nat × V)) : List (Nat × V) :=
  let days0 := List.insertionSort (· ≤ ·) (alKeys m)
  if 1 < days0.length then fillDays zero m (days0.headD 0) (days0.getLastD 0) else m

/-- Result record of processData. -/
structure ProcessedData where
  byDay : List (Nat × DayCount)
  byAuthor : List (List Char × Nat)
  byProject : List (List Char × Nat)
  days : List Nat
  authorList : List (List Char)
  totalPRs : Nat
deriving DecidableEq

/-- processData of src/utils/dataProcessing.ts: one pass building the
byDay/byAuthor/byProject maps, the gap fill between the first and last
observed days (only run when more than one distinct day exists), the
sorted day axis, and the author list sorted by descending PR count (JS
sort is stable since ES2019; insertion sort models it). -/
def processData (records : List PRRecord) : ProcessedData :=
  let acc := records.foldl velocityStep ⟨[], [], [], []⟩
  let byDayFilled := filledOf emptyDayCount acc.byDay
  let allDays := List.insertionSort (· ≤ ·) (alKeys byDayFilled)
  let authorList := List.insertionSort
    (fun a b => alGetD acc.byAuthor b 0 ≤ alGetD acc.byAuthor a 0) acc.authors
  { byDay := byDayFilled, byAuthor := acc.byAuthor, byProject := acc.byProject,
    days := allDays, authorList := authorList, totalPRs := records.length }

/-- Added and deleted line counters kept per author and per project by
processImpactData. -/
structure ImpactPair where
  added : Int
  deleted : Int
deriving DecidableEq

def emptyImpactPair : ImpactPair := ⟨0, 0⟩

/-- Per-day impact bucket of processImpactData. -/
structure ImpactDayCount where
  totalAdded : Int
  totalDeleted : Int
  perAuthor : List (List Char × ImpactPair)
deriving DecidableEq

def emptyImpactDayCount : ImpactDayCount := ⟨0, 0, []⟩

instance : Inhabited ImpactDayCount := ⟨emptyImpactDayCount⟩

/-- State built by the record loop of processImpactData. -/
structure ImpactAcc where
  byDay : List (Nat × ImpactDayCount)
  byAuthor : List (List Char × ImpactPair)
  byProject : List (List Char × ImpactPair)
  authors : List (List Char)
deriving DecidableEq

/-- One iteration of processImpactData's record loop. -/
def impactStep (acc : ImpactAcc) (r : PRRecord) : ImpactAcc where
  byDay := alUpdate acc.byDay r.closedDate emptyImpactDayCount (fun b =>
    { totalAdded := b.totalAdded + r.linesAdded,
      totalDeleted := b.totalDeleted + r.linesDeleted,
      perAuthor := alUpdate b.perAuthor r.author emptyImpactPair (fun p =>
        { added := p.added + r.linesAdded, deleted := p.deleted + r.linesDeleted }) })
  byAuthor := alUpdate acc.byAuthor r.author emptyImpactPair (fun p =>
    { added := p.added + r.linesAdded, deleted := p.deleted + r.linesDeleted })
  byProject := alUpdate acc.byProject r.project emptyImpactPair (fun p =>
    { added := p.added + r.linesAdded, deleted := p.deleted + r.linesDeleted })
  authors := if r.author ∈ acc.authors then acc.authors else acc.authors ++ [r.author]

/-- Result record of processImpactData. -/
structure ImpactData where
  byDay : List (Nat × ImpactDayCount)
  byAuthor : List (List Char × ImpactPair)
  byProject : List (List Char × ImpactPair)
  days : List Nat
  authorList : List (List Char)
  totalLinesAdded : Int
  totalLinesDeleted : Int
deriving DecidableEq

/-- processImpactData of src/utils/dataProcessing.ts, the LOC analogue
of processData with the same gap fill; the author list is ordered by
descending total lines touched. -/
def processImpactData (records : List PRRecord) : ImpactData :=
  let acc := records.foldl impactStep ⟨[], [], [], []⟩
  let byDayFilled := filledOf emptyImpactDayCount acc.byDay
  let allDays := List.insertionSort (· ≤ ·) (alKeys byDayFilled)
  let authorList := List.insertionSort
    (fun a b =>
      (alGetD acc.byAuthor b emptyImpactPair).added
          + (alGetD acc.byAuthor b emptyImpactPair).deleted
        ≤ (alGetD acc.byAuthor a emptyImpactPair).added
          + (alGetD acc.byAuthor a emptyImpactPair).deleted) acc.authors
  { byDay := byDayFilled, byAuthor := acc.byAuthor, byProject := acc.byProject,
    days := allDays, authorList := authorList,
    totalLinesAdded := (acc.byAuthor.map (fun p => p.2.added)).sum,
    totalLinesDeleted := (acc.byAuthor.map (fun p => p.2.deleted)).sum }

/-- Minimum day number of a list (0 for the empty list). -/
def listMin : List Nat → Nat
  | [] => 0
  | x :: xs => xs.foldl min x

/-- Maximum day number of a list (0 for the empty list). -/
def listMax : List Nat → Nat
  | [] => 0
  | x :: xs => xs.foldl max x

/-- Total of the byDay bucket read for day d in velocity mode. -/
def dayTotal (p : ProcessedData) (d : Nat) : Nat :=
  (alGetD p.byDay d emptyDayCount).total

/-- totalAdded of the byDay bucket read for day d in impact mode. -/
def impactDayAdded (p : ImpactData) (d : Nat) : Int :=
  (alGetD p.byDay d emptyImpactDayCount).totalAdded

/-- totalDeleted of the byDay bucket read for day d in impact mode. -/
def impactDayDeleted (p : ImpactData) (d : Nat) : Int :=
  (alGetD p.byDay d emptyImpactDayCount).totalDeleted

/-! ### Moving average -/

/-- Inclusive integer range from a to b (empty when b < a), the index
space of the inner loop of calculateMovingAverage. -/
def intRange (a b : Int) : List Int :=
  (List.range (b + 1 - a).toNat).map (fun (k : Nat) => a + (k : Int))

/-- The values the inner loop of calculateMovingAverage sums for index
i: data[j] for every j of [i-half, i+half] inside the series bounds. -/
def windowVals (data : List ℚ) (half : Int) (i : Nat) : List ℚ :=
  ((intRange ((i : Int) - half) ((i : Int) + half)).filter
    (fun j => 0 ≤ j ∧ j < (data.length : Int))).map (fun j => data.getD j.toNat 0)

/-- calculateMovingAverage of src/utils/dataProcessing.ts.  Series
entries are rationals (the code divides sums by counts); the null and
undefined guards of the inner loop never fire on a numeric series. -/
def calculateMovingAverage (data : List ℚ) (windowSize : Int) : List ℚ :=
  if windowSize ≤ 1 then data
  else
    (List.range data.length).map (fun i =>
      let w := windowVals data (windowSize / 2) i
      if 0 < w.length then w.sum / (w.length : ℚ) else 0)

/-! ### Summary statistics -/

/-- One finite binary64 value: num times 2 to the exp. -/
structure F64 where
  num : Int
  exp : Int
deriving DecidableEq

/-- Scaling loop of the rounding step: multiplies numerator or
denominator by two, adjusting the exponent, until the quotient lies in
the mantissa interval.  2 to the 52 is 4503599627370496. -/
def f64Scale : Nat → Nat → Nat → Int → Nat × Nat × Int
  | 0, n, d, e => (n, d, e)
  | fuel + 1, n, d, e =>
      if n < 4503599627370496 * d then f64Scale fuel (2 * n) d (e - 1)
      else if 9007199254740992 * d ≤ n then f64Scale fuel n (2 * d) (e + 1)
      else (n, d, e)

/-- Binary64 rounding of the positive rational (num / den) times 2 to
the e: normalize the quotient into the 53-bit mantissa range, then
round to nearest with ties to even. -/
def roundPosF64 (num den : Nat) (e : Int) : F64 :=
  let s := f64Scale 4400 num den e
  let m := s.1 / s.2.1
  let r := s.1 % s.2.1
  let m2 :=
    if 2 * r < s.2.1 then m
    else if s.2.1 < 2 * r then m + 1
    else if m % 2 = 0 then m else m + 1
  ⟨(m2 : Int), s.2.2⟩

/-- Binary64 rounding of the rational (num / den) times 2 to the e,
with sign handling; a zero numerator or denominator yields the zero
double (the latter stands outside the model, see above). -/
def roundF64 (num den : Int) (e : Int) : F64 :=
  if num = 0 ∨ den = 0 then ⟨0, 0⟩
  else
    let mag := roundPosF64 num.natAbs den.natAbs e
    if (decide (num < 0)) = (decide (den < 0)) then mag else ⟨-mag.num, mag.exp⟩

/-- The double holding an integer (exact below 2 to the 53). -/
def f64OfInt (k : Int) : F64 := roundF64 k 1 0

/-- Binary64 division. -/
def divF64 (a b : F64) : F64 := roundF64 a.num b.num (a.exp - b.exp)

/-- Binary64 multiplication. -/
def mulF64 (a b : F64) : F64 := roundF64 (a.num * b.num) 1 (a.exp + b.exp)

/-- Math.floor of a finite double. -/
def floorF64 (a : F64) : Int :=
  if 0 ≤ a.exp then a.num * ((2 : Int) ^ a.exp.toNat)
  else Int.fdiv a.num ((2 : Int) ^ (-a.exp).toNat)

/-- The percentileIndex of removeOutliers:
Math.floor(n * (percentile / 100)) in binary64 arithmetic. -/
def pctIndex (n : Nat) (p : F64) : Int :=
  floorF64 (mulF64 (f64OfInt (n : Int)) (divF64 p (f64OfInt 100)))

/-- totalLines = linesAdded + linesDeleted of one record. -/
def totalLines (r : PRRecord) : Int := r.linesAdded + r.linesDeleted

/-- removeOutliers of src/utils/dataProcessing.ts.  The stable ascending
sort by total lines models the JS comparator sort; the percentile index
is computed in the binary64 model above.  When the clamped index is
negative the source reads sorted[index].totalLines off the end of the
array and throws a TypeError; that crash is modelled as none. -/
def removeOutliers (records : List PRRecord) (percentile : F64) :
    Option (List PRRecord) :=
  if records.length = 0 then some records
  else
    let sorted := List.insertionSort (fun a b => totalLines a ≤ totalLines b) records
    let idx := min (pctIndex sorted.length percentile) ((sorted.length : Int) - 1)
    if idx < 0 then none
    else
      let threshold := totalLines (sorted.getD idx.toNat default)
      some (records.filter (fun r => totalLines r ≤ threshold))

/-! ### The fetcher: pagination and the change-stats estimator -/

/-- One pull request item as served by the upstream PR listing: the
completion instant is optional (PRs lacking one are discarded), and the
identifier stands for the rest of the payload. -/
structure UpstreamPR where
  closedDate : Option Int
  prId : Nat
deriving DecidableEq

/-- The per-item body of the pagination loop: drop items without a
closedDate, keep the rest exactly when the date is on or after the
cutoff. -/
def pageEmits (cutoff : Int) (page : List UpstreamPR) : List UpstreamPR :=
  page.filter (fun pr =>
    match pr.closedDate with
    | none => false
    | some d => cutoff ≤ d)

/-- The pagination loop of fetchPRData for one repository, driven by the
successive pages the upstream serves (an exhausted upstream serves an
empty page).  First component: how many page fetches were issued;
second: the records emitted.  The loop stops after a page that is empty
or shorter than the page size, and otherwise advances the skip offset
and fetches again. -/
def paginateRun (top : Nat) (cutoff : Int) :
    List (List UpstreamPR) → Nat × List UpstreamPR
  | [] => (1, [])
  | page :: rest =>
      if page.length = 0 then (1, [])
      else
        let emitted := pageEmits cutoff page
        if page.length < top then (1, emitted)
        else
          let r := paginateRun top cutoff rest
          (r.1 + 1, emitted ++ r.2)

/-- The pages whose items the loop actually scans: every full page up to
and including the first short nonempty page. -/
def scannedPages (top : Nat) : List (List UpstreamPR) → List (List UpstreamPR)
  | [] => []
  | page :: rest =>
      if page.length = 0 then []
      else if page.length < top then [page]
      else page :: scannedPages top rest

/-- changeCounts of one commit detail response; every file-count field
is optional and defaults to 0 (the Add/Edit/Delete buckets). -/
structure ChangeCounts where
  addCount : Option Nat
  editCount : Option Nat
  deleteCount : Option Nat
deriving DecidableEq

/-- One loop iteration of getPRChangeStats: a commit whose detail fetch
failed (outer none) or which carries no changeCounts (inner none)
contributes nothing; otherwise the heuristic constants are applied. -/
def commitStep (acc : Nat × Nat) (c : Option (Option ChangeCounts)) : Nat × Nat :=
  match c with
  | none => acc
  | some none => acc
  | some (some cc) =>
      (acc.1 + ((cc.addCount.getD 0) * 50 + (cc.editCount.getD 0) * 15),
       acc.2 + ((cc.deleteCount.getD 0) * 30 + (cc.editCount.getD 0) * 5))

/-- getPRChangeStats of the fetcher, over the modelled upstream: the
whole commit-list fetch may fail (none, covering both the non-ok
response and the catch-all), else each commit's detail response is
processed in order. -/
def getPRChangeStats
    (commitsFetch : Option (List (Option (Option ChangeCounts)))) : Nat × Nat :=
  match commitsFetch with
  | none => (0, 0)
  | some commits => commits.foldl commitStep (0, 0)

/-- Estimated lines added of one commit response, per the heuristic. -/
def commitAdded (c : Option (Option ChangeCounts)) : Nat :=
  match c with
  | some (some cc) => (cc.addCount.getD 0) * 50 + (cc.editCount.getD 0) * 15
  | _ => 0

/-- Estimated lines deleted of one commit response, per the heuristic. -/
def commitDeleted (c : Option (Option ChangeCounts)) : Nat :=
  match c with
  | some (some cc) => (cc.deleteCount.getD 0) * 30 + (cc.editCount.getD 0) * 5
  | _ => 0

/-- The indices the specification's moving-average window names for
position i: all indices of the series within distance half of i. -/
def specWindowIdx (n : Nat) (half : Int) (i : Nat) : List Nat :=
  (List.range n).filter (fun (j : Nat) => (i : Int) - half ≤ (j : Int) ∧ (j : Int) ≤ (i : Int) + half)

/-! ### Concrete sample data used by the claim witnesses -/

/-- A record whose title contains a double quote: the smallest shape on
which the codec round-trip fails. -/
def badRecord : CSVRecord :=
  { author := ['a'], authorEmail := ['e'], project := ['p'], repository := ['r'],
    closedDate := ("2024-01-05").data, prId := 7, title := ['t', '"', 'u'],
    linesAdded := 3, linesDeleted := 4 }

/-- Two well-formed records, the first with a comma inside its title. -/
def sampleRecords : List CSVRecord :=
  [ { author := ("Jane Doe").data, authorEmail := ("jane@example.com").data,
      project := ("Proj").data, repository := ("repo-one").data,
      closedDate := ("2024-01-05").data, prId := 101,
      title := ("Fix bug, add tests").data, linesAdded := 120, linesDeleted := 15 },
    { author := ("Bob").data, authorEmail := ("bob@example.com").data,
      project := ("Proj").data, repository := ("repo-two").data,
      closedDate := ("2024-02-11").data, prId := 0,
      title := [], linesAdded := 0, linesDeleted := 7 } ]

/-- Two analytics records three days apart, leaving a two-day gap. -/
def gapRecords : List PRRecord :=
  [ { (default : PRRecord) with author := ['a'], project := ['p'], closedDate := 10 },
    { (default : PRRecord) with author := ['b'], project := ['q'], closedDate := 13 } ]

/-- The three upstream pages of sizes 1000, 1000 and 400 of the
pagination test scenario. -/
def threePages : List (List UpstreamPR) :=
  [ List.replicate 1000 (⟨some 0, 0⟩ : UpstreamPR),
    List.replicate 1000 (⟨some 0, 0⟩ : UpstreamPR),
    List.replicate 400 (⟨some 0, 0⟩ : UpstreamPR) ]

/-- One hundred records whose totalLines are exactly 1..100 (listed in
descending order so the ascending sort does real work). -/
def hundredRecords : List PRRecord :=
  (List.range 100).map (fun i => { (default : PRRecord) with linesAdded := (100 - i : Int) })

/-- A single analytics record by author a. -/
def oneRecord : List PRRecord :=
  [ { (default : PRRecord) with author := ['a'], linesAdded := 5, linesDeleted := 2 } ]

/-! ### Lemmas: decimal numerals -/

theorem digitChar_mem_decDigits (d : Nat) (h : d < 10) : Nat.digitChar d ∈ decDigits := by
  interval_cases d <;> decide

theorem natToCharsAux_mem (fuel n : Nat) (h : n < fuel) :
    ∀ c ∈ natToCharsAux fuel n, c ∈ decDigits := by
  induction fuel generalizing n with
  | zero => omega
  | succ fuel ih =>
    intro c hc
    rw [natToCharsAux] at hc
    split at hc
    · rw [List.mem_singleton] at hc
      subst hc
      exact digitChar_mem_decDigits n (by omega)
    · rcases List.mem_append.mp hc with h1 | h1
      · exact ih (n / 10) (by omega) c h1
      · rw [List.mem_singleton] at h1
        subst h1
        exact digitChar_mem_decDigits _ (Nat.mod_lt _ (by omega))

theorem natToCharsAux_ne_nil (fuel n : Nat) (h : 0 < fuel) :
    natToCharsAux fuel n ≠ [] := by
  match fuel with
  | fuel + 1 =>
    rw [natToCharsAux]
    split
    · simp
    · simp

theorem natToChars_mem (n : Nat) : ∀ c ∈ natToChars n, c ∈ decDigits :=
  natToCharsAux_mem (n + 1) n (by omega)

theorem natToChars_ne_nil (n : Nat) : natToChars n ≠ [] :=
  natToCharsAux_ne_nil (n + 1) n (by omega)

theorem digitVal_digitChar (d : Nat) (h : d < 10) : digitVal (Nat.digitChar d) = d := by
  interval_cases d <;> decide

theorem digitsToNat_append_one (xs : List Char) (c : Char) :
    digitsToNat (xs ++ [c]) = digitsToNat xs * 10 + digitVal c := by
  simp [digitsToNat, List.foldl_append]

theorem digitsToNat_natToCharsAux (fuel n : Nat) (h : n < fuel) :
    digitsToNat (natToCharsAux fuel n) = n := by
  induction fuel generalizing n with
  | zero => omega
  | succ fuel ih =>
    rw [natToCharsAux]
    split
    · rename_i h10
      simp [digitsToNat, digitVal_digitChar n h10]
    · rw [digitsToNat_append_one, ih (n / 10) (by omega),
        digitVal_digitChar _ (Nat.mod_lt _ (by omega))]
      omega

theorem digitsToNat_natToChars (n : Nat) : digitsToNat (natToChars n) = n :=
  digitsToNat_natToCharsAux (n + 1) n (by omega)

/-! ### Lemmas: digit character classes -/

theorem decDigit_isDigit {c : Char} (h : c ∈ decDigits) : c.isDigit = true := by
  fin_cases h <;> decide

theorem decDigit_not_space {c : Char} (h : c ∈ decDigits) : jsIsSpace c = false := by
  fin_cases h <;> decide

theorem decDigit_ne {c : Char} (h : c ∈ decDigits) :
    c ≠ ',' ∧ c ≠ '"' ∧ c ≠ '\n' ∧ c ≠ 'x' ∧ c ≠ 'X' ∧ c ≠ '-' ∧ c ≠ '+' := by
  fin_cases h <;> decide

/-! ### Lemmas: parseInt on canonical numerals -/

theorem takeWhile_eq_self {α : Type} (p : α → Bool) (l : List α)
    (h : ∀ c ∈ l, p c = true) : l.takeWhile p = l := by
  induction l with
  | nil => rfl
  | cons a t ih =>
    rw [List.takeWhile_cons, h a (List.mem_cons_self a t)]
    simp [ih (fun c hc => h c (List.mem_cons_of_mem a hc))]

theorem decValue_digits (s : List Char) (hne : s ≠ [])
    (hd : ∀ c ∈ s, c ∈ decDigits) : decValue s = some (digitsToNat s) := by
  have : leadingDigits s = s :=
    takeWhile_eq_self _ s (fun c hc => decDigit_isDigit (hd c hc))
  simp [decValue, this, hne]

theorem natValueJs_digits (s : List Char) (hne : s ≠ [])
    (hd : ∀ c ∈ s, c ∈ decDigits) : natValueJs s = some (digitsToNat s) := by
  have hdec := decValue_digits s hne hd
  match s with
  | [c] => simpa [natValueJs] using hdec
  | a :: c :: rest =>
    have hc : c ∈ decDigits := hd c (by simp)
    have hx := decDigit_ne hc
    rw [natValueJs]
    rw [if_neg (by simp [hx.2.2.2.1, hx.2.2.2.2.1])]
    exact hdec

theorem jsParseIntOr0_natToChars (n : Nat) : jsParseIntOr0 (natToChars n) = (n : Int) := by
  obtain ⟨c, t, hct⟩ := List.exists_cons_of_ne_nil (natToChars_ne_nil n)
  have hc : c ∈ decDigits :=
    natToChars_mem n c (by rw [hct]; exact List.mem_cons_self c t)
  have hcs := decDigit_not_space hc
  have hcne := decDigit_ne hc
  have hdrop : (natToChars n).dropWhile jsIsSpace = c :: t := by
    rw [hct, List.dropWhile_cons, hcs]
    simp
  have hval : natValueJs (c :: t) = some (digitsToNat (natToChars n)) := by
    rw [← hct]
    exact natValueJs_digits _ (natToChars_ne_nil n) (natToChars_mem n)
  rw [jsParseIntOr0, jsParseInt, hdrop, jsParseIntCore]
  rw [if_neg hcne.2.2.2.2.2.1, if_neg hcne.2.2.2.2.2.2, hval, digitsToNat_natToChars]
  rfl

theorem jsParseIntOr0_intChars (k : Int) : jsParseIntOr0 (intChars k) = k := by
  by_cases hk : k < 0
  · rw [intChars, if_pos hk]
    have hval : natValueJs (natToChars k.natAbs) = some k.natAbs := by
      rw [natValueJs_digits _ (natToChars_ne_nil _) (natToChars_mem _),
        digitsToNat_natToChars]
    have hdash : jsIsSpace '-' = false := by decide
    have hdrop : (('-' :: natToChars k.natAbs).dropWhile jsIsSpace)
        = '-' :: natToChars k.natAbs := by
      rw [List.dropWhile_cons, hdash]
      simp
    rw [jsParseIntOr0, jsParseInt, hdrop, jsParseIntCore]
    rw [if_pos rfl, hval]
    show -(k.natAbs : Int) = k
    omega
  · rw [intChars, if_neg hk, jsParseIntOr0_natToChars]
    omega

/-! ### Lemmas: newline splitting and joining -/

theorem splitNL_ne_nil (s : List Char) : splitNL s ≠ [] := by
  cases s with
  | nil => simp [splitNL]
  | cons c rest =>
    rw [splitNL]
    cases h : splitNL rest with
    | nil => simp [splitNLCons]
    | cons g gs =>
      rw [splitNLCons]
      split <;> simp

theorem splitNL_append (l s : List Char) (h : '\n' ∉ l) :
    splitNL (l ++ s) = (l ++ (splitNL s).headD []) :: (splitNL s).tail := by
  induction l with
  | nil =>
    obtain ⟨g, gs, hg⟩ := List.exists_cons_of_ne_nil (splitNL_ne_nil s)
    rw [List.nil_append, hg]
    rfl
  | cons c l ih =>
    have hc : c ≠ '\n' := by
      intro hceq
      exact h (hceq ▸ List.mem_cons_self c l)
    have hl : '\n' ∉ l := fun hm => h (List.mem_cons_of_mem c hm)
    rw [List.cons_append, splitNL, ih hl, splitNLCons, if_neg hc]
    simp

theorem splitNL_joinNL (ls : List (List Char)) (hne : ls ≠ [])
    (h : ∀ l ∈ ls, '\n' ∉ l) : splitNL (joinNL ls) = ls := by
  induction ls with
  | nil => exact absurd rfl hne
  | cons l ls ih =>
    cases ls with
    | nil =>
      have h0 := splitNL_append l [] (h l (List.mem_cons_self l []))
      simpa [joinNL, splitNL, splitNLCons] using h0
    | cons l2 ls2 =>
      rw [joinNL, splitNL_append l _ (h l (List.mem_cons_self l _)), splitNL,
        ih (by simp) (fun x hx => h x (List.mem_cons_of_mem l hx)), splitNLCons,
        if_pos rfl]
      simp

/-! ### Lemmas: the quote-aware comma splitter -/

theorem splitFields_plain (f rest cur : List Char)
    (h : ∀ c ∈ f, c ≠ ',' ∧ c ≠ '"') :
    splitFieldsAux (f ++ ',' :: rest) cur false
      = (cur ++ f) :: splitFieldsAux rest [] false := by
  induction f generalizing cur with
  | nil =>
    rw [List.nil_append, splitFieldsAux, if_neg (by decide), if_pos (by decide)]
    simp
  | cons a f ih =>
    have ha := h a (List.mem_cons_self a f)
    rw [List.cons_append, splitFieldsAux, if_neg ha.2, if_neg (by simp [ha.1]),
      ih _ (fun c hc => h c (List.mem_cons_of_mem a hc))]
    simp

theorem splitFields_inQuotes (t rest cur : List Char) (h : ∀ c ∈ t, c ≠ '"') :
    splitFieldsAux (t ++ rest) cur true = splitFieldsAux rest (cur ++ t) true := by
  induction t generalizing cur with
  | nil => simp
  | cons a tl ih =>
    have ha := h a (List.mem_cons_self a tl)
    rw [List.cons_append, splitFieldsAux, if_neg ha, if_neg (by simp),
      ih _ (fun c hc => h c (List.mem_cons_of_mem a hc))]
    simp

theorem splitFields_last (f cur : List Char) (h : ∀ c ∈ f, c ≠ ',' ∧ c ≠ '"') :
    splitFieldsAux f cur false = [cur ++ f] := by
  induction f generalizing cur with
  | nil => simp [splitFieldsAux]
  | cons a f ih =>
    have ha := h a (List.mem_cons_self a f)
    rw [splitFieldsAux, if_neg ha.2, if_neg (by simp [ha.1]),
      ih _ (fun c hc => h c (List.mem_cons_of_mem a hc))]
    simp

theorem escapeQuotes_id (t : List Char) (h : ∀ c ∈ t, c ≠ '"') :
    escapeQuotes t = t := by
  induction t with
  | nil => rfl
  | cons a tl ih =>
    rw [escapeQuotes, if_neg (h a (List.mem_cons_self a tl)),
      ih (fun c hc => h c (List.mem_cons_of_mem a hc))]

theorem splitFields_quoted (t rest cur : List Char) (ht : ∀ c ∈ t, c ≠ '"') :
    splitFieldsAux (quoteTitle t ++ ',' :: rest) cur false
      = (cur ++ t) :: splitFieldsAux rest [] false := by
  rw [quoteTitle, escapeQuotes_id t ht, List.cons_append, splitFieldsAux, if_pos rfl]
  simp only [Bool.not_false]
  have hassoc : (t ++ ['"']) ++ ',' :: rest = t ++ ('"' :: ',' :: rest) := by simp
  rw [hassoc, splitFields_inQuotes t _ cur ht, splitFieldsAux, if_pos rfl]
  simp only [Bool.not_true]
  rw [splitFieldsAux, if_neg (by decide), if_pos (by decide)]

/-! ### Lemmas: characters of encoded records -/

theorem plainField_chars {s : List Char} (h : plainField s = true) :
    ∀ c ∈ s, c ≠ ',' ∧ c ≠ '"' ∧ c ≠ '\n' := by
  intro c hc
  have := (List.all_eq_true.mp h) c hc
  simpa [and_assoc] using this

theorem quoteFree_chars {s : List Char} (h : quoteFreeTitle s = true) :
    ∀ c ∈ s, c ≠ '"' ∧ c ≠ '\n' := by
  intro c hc
  have := (List.all_eq_true.mp h) c hc
  simpa using this

theorem intChars_chars (k : Int) : ∀ c ∈ intChars k, c ≠ ',' ∧ c ≠ '"' ∧ c ≠ '\n' := by
  intro c hc
  rw [intChars] at hc
  by_cases hk : k < 0
  · rw [if_pos hk] at hc
    rcases List.mem_cons.mp hc with h1 | h1
    · subst h1
      refine ⟨by decide, by decide, by decide⟩
    · have := decDigit_ne (natToChars_mem _ c h1)
      exact ⟨this.1, this.2.1, this.2.2.1⟩
  · rw [if_neg hk] at hc
    have := decDigit_ne (natToChars_mem _ c hc)
    exact ⟨this.1, this.2.1, this.2.2.1⟩

theorem mem_escapeQuotes {c : Char} {t : List Char} (h : c ∈ escapeQuotes t) :
    c = '"' ∨ c ∈ t := by
  induction t with
  | nil => simp [escapeQuotes] at h
  | cons a tl ih =>
    rw [escapeQuotes] at h
    split at h
    · rcases List.mem_cons.mp h with h1 | h1
      · exact Or.inl h1
      rcases List.mem_cons.mp h1 with h2 | h2
      · exact Or.inl h2
      · rcases ih h2 with h3 | h3
        · exact Or.inl h3
        · exact Or.inr (List.mem_cons_of_mem a h3)
    · rcases List.mem_cons.mp h with h1 | h1
      · exact Or.inr (h1 ▸ List.mem_cons_self a tl)
      · rcases ih h1 with h3 | h3
        · exact Or.inl h3
        · exact Or.inr (List.mem_cons_of_mem a h3)

theorem wellFormed_fields {r : CSVRecord} (h : wellFormed r = true) :
    plainField r.author = true ∧ plainField r.authorEmail = true ∧
    plainField r.project = true ∧ plainField r.repository = true ∧
    plainField r.closedDate = true ∧ quoteFreeTitle r.title = true := by
  simpa [wellFormed, Bool.and_eq_true, and_assoc] using h

theorem encodeRecord_chars (r : CSVRecord) (h : wellFormed r = true) :
    ∀ c ∈ encodeRecord r, c ≠ '\n' := by
  have hw := wellFormed_fields h
  intro c hc
  rw [encodeRecord] at hc
  simp only [List.append_assoc] at hc
  rcases List.mem_append.mp hc with h1 | h1
  · exact (plainField_chars hw.1 _ h1).2.2
  rcases List.mem_cons.mp h1 with h1 | h1
  · subst h1; decide
  rcases List.mem_append.mp h1 with h1 | h1
  · exact (plainField_chars hw.2.1 _ h1).2.2
  rcases List.mem_cons.mp h1 with h1 | h1
  · subst h1; decide
  rcases List.mem_append.mp h1 with h1 | h1
  · exact (plainField_chars hw.2.2.1 _ h1).2.2
  rcases List.mem_cons.mp h1 with h1 | h1
  · subst h1; decide
  rcases List.mem_append.mp h1 with h1 | h1
  · exact (plainField_chars hw.2.2.2.1 _ h1).2.2
  rcases List.mem_cons.mp h1 with h1 | h1
  · subst h1; decide
  rcases List.mem_append.mp h1 with h1 | h1
  · exact (plainField_chars hw.2.2.2.2.1 _ h1).2.2
  rcases List.mem_cons.mp h1 with h1 | h1
  · subst h1; decide
  rcases List.mem_append.mp h1 with h1 | h1
  · exact (intChars_chars r.prId _ h1).2.2
  rcases List.mem_cons.mp h1 with h1 | h1
  · subst h1; decide
  rcases List.mem_append.mp h1 with h1 | h1
  · rw [quoteTitle] at h1
    rcases List.mem_cons.mp h1 with h1 | h1
    · subst h1; decide
    rcases List.mem_append.mp h1 with h1 | h1
    · rcases mem_escapeQuotes h1 with h2 | h2
      · subst h2; decide
      · exact (quoteFree_chars hw.2.2.2.2.2 _ h2).2
    · rcases List.mem_singleton.mp h1 with h1
      subst h1; decide
  rcases List.mem_cons.mp h1 with h1 | h1
  · subst h1; decide
  rcases List.mem_append.mp h1 with h1 | h1
  · exact (intChars_chars r.linesAdded _ h1).2.2
  rcases List.mem_cons.mp h1 with h1 | h1
  · subst h1; decide
  · exact (intChars_chars r.linesDeleted _ h1).2.2

theorem encodeRecord_no_newline (r : CSVRecord) (h : wellFormed r = true) :
    '\n' ∉ encodeRecord r := fun hmem => encodeRecord_chars r h '\n' hmem rfl

/-! ### Lemmas: first and last characters of the encoded text -/

theorem getLast_chunk {l₂ : List Char} (l₁ : List Char) {c : Char}
    (h : l₂.getLast? = some c) : (l₁ ++ l₂).getLast? = some c := by
  rw [List.getLast?_append, h]
  rfl

theorem getLast_cons_chunk {l₂ : List Char} (a : Char) {c : Char}
    (h : l₂.getLast? = some c) : (a :: l₂).getLast? = some c :=
  getLast_chunk [a] h

theorem natToChars_getLast (n : Nat) : ∃ c ∈ decDigits, (natToChars n).getLast? = some c := by
  rw [natToChars, natToCharsAux]
  split
  · rename_i h10
    exact ⟨Nat.digitChar n, digitChar_mem_decDigits n h10, rfl⟩
  · exact ⟨Nat.digitChar (n % 10),
      digitChar_mem_decDigits _ (Nat.mod_lt _ (by omega)), List.getLast?_concat _⟩

theorem intChars_getLast (k : Int) : ∃ c ∈ decDigits, (intChars k).getLast? = some c := by
  rw [intChars]
  split
  · obtain ⟨c, hc, hl⟩ := natToChars_getLast k.natAbs
    exact ⟨c, hc, getLast_cons_chunk '-' hl⟩
  · exact natToChars_getLast k.natAbs

theorem encodeRecord_getLast (r : CSVRecord) :
    ∃ c ∈ decDigits, (encodeRecord r).getLast? = some c := by
  obtain ⟨c, hc, hl⟩ := intChars_getLast r.linesDeleted
  refine ⟨c, hc, ?_⟩
  rw [encodeRecord]
  exact getLast_chunk _ (getLast_cons_chunk ',' hl)

theorem joinNL_getLast_concat (ls : List (List Char)) (l : List Char) {c : Char}
    (h : l.getLast? = some c) : (joinNL (ls ++ [l])).getLast? = some c := by
  induction ls with
  | nil => simpa [joinNL] using h
  | cons a ls ih =>
    cases ls with
    | nil =>
      rw [show ([a] ++ [l] : List (List Char)) = a :: l :: [] from rfl,
        show joinNL (a :: l :: []) = a ++ '\n' :: l from rfl]
      exact getLast_chunk a (getLast_cons_chunk '\n' h)
    | cons b ls2 =>
      rw [List.cons_append,
        show joinNL (a :: ((b :: ls2) ++ [l])) = a ++ '\n' :: joinNL ((b :: ls2) ++ [l])
          from rfl]
      exact getLast_chunk a (getLast_cons_chunk '\n' ih)

theorem encodeCSV_head (rs : List CSVRecord) : (encodeCSV rs).head? = some 'A' := by
  rw [encodeCSV]
  cases rs with
  | nil => rfl
  | cons r rs =>
    rw [List.map_cons, joinNL]
    rfl

theorem encodeCSV_getLast_not_space (rs : List CSVRecord) :
    ∀ c, (encodeCSV rs).getLast? = some c → jsIsSpace c = false := by
  rcases List.eq_nil_or_concat rs with hnil | ⟨rs₀, r, hcat⟩
  · subst hnil
    intro c hc
    rw [show (encodeCSV ([] : List CSVRecord)).getLast? = some 'd' from by decide] at hc
    cases hc
    decide
  · subst hcat
    intro c hc
    obtain ⟨d, hd, hl⟩ := encodeRecord_getLast r
    have hlast : (encodeCSV (rs₀.concat r)).getLast? = some d := by
      rw [encodeCSV, List.concat_eq_append, List.map_append, List.map_cons, List.map_nil]
      rw [show headerChars :: (List.map encodeRecord rs₀ ++ [encodeRecord r])
          = (headerChars :: List.map encodeRecord rs₀) ++ [encodeRecord r] from rfl]
      exact joinNL_getLast_concat _ _ hl
    rw [hlast] at hc
    cases hc
    exact decDigit_not_space hd

/-! ### Lemmas: trimming and line splitting of the encoded text -/

theorem dropWhile_eq_self_of_head {p : Char → Bool} {l : List Char}
    (h : ∀ c, l.head? = some c → p c = false) : l.dropWhile p = l := by
  cases l with
  | nil => rfl
  | cons a t =>
    rw [List.dropWhile_cons, h a rfl]
    simp

theorem trimChars_eq_self {s : List Char}
    (h1 : ∀ c, s.head? = some c → jsIsSpace c = false)
    (h2 : ∀ c, s.getLast? = some c → jsIsSpace c = false) : trimChars s = s := by
  rw [trimChars, dropWhile_eq_self_of_head h1,
    dropWhile_eq_self_of_head (fun c hc => h2 c (by rwa [List.head?_reverse] at hc)),
    List.reverse_reverse]

theorem trim_encodeCSV (rs : List CSVRecord) : trimChars (encodeCSV rs) = encodeCSV rs := by
  apply trimChars_eq_self
  · intro c hc
    rw [encodeCSV_head rs] at hc
    cases hc
    decide
  · exact encodeCSV_getLast_not_space rs

theorem splitNL_encodeCSV (rs : List CSVRecord) (h : ∀ r ∈ rs, wellFormed r = true) :
    splitNL (encodeCSV rs) = headerChars :: rs.map encodeRecord := by
  rw [encodeCSV]
  apply splitNL_joinNL _ (by simp)
  intro l hl
  rcases List.mem_cons.mp hl with h1 | h1
  · subst h1
    decide
  · obtain ⟨r, hr, hrl⟩ := List.mem_map.mp h1
    exact hrl ▸ encodeRecord_no_newline r (h r hr)

/-! ### The round-trip of one record line -/

theorem parseLine_encodeRecord (r : CSVRecord) (h : wellFormed r = true) :
    parseLine (encodeRecord r)
      = [r.author, r.authorEmail, r.project, r.repository, r.closedDate,
         intChars r.prId, r.title, intChars r.linesAdded, intChars r.linesDeleted] := by
  have hw := wellFormed_fields h
  have hf : ∀ {s : List Char}, plainField s = true → ∀ c ∈ s, c ≠ ',' ∧ c ≠ '"' :=
    fun hs c hc => ⟨(plainField_chars hs c hc).1, (plainField_chars hs c hc).2.1⟩
  have hint : ∀ (k : Int), ∀ c ∈ intChars k, c ≠ ',' ∧ c ≠ '"' :=
    fun k c hc => ⟨(intChars_chars k c hc).1, (intChars_chars k c hc).2.1⟩
  have htitle : ∀ c ∈ r.title, c ≠ '"' :=
    fun c hc => (quoteFree_chars hw.2.2.2.2.2 c hc).1
  rw [parseLine, encodeRecord]
  simp only [List.append_assoc, List.cons_append]
  rw [splitFields_plain _ _ _ (hf hw.1), splitFields_plain _ _ _ (hf hw.2.1),
    splitFields_plain _ _ _ (hf hw.2.2.1), splitFields_plain _ _ _ (hf hw.2.2.2.1),
    splitFields_plain _ _ _ (hf hw.2.2.2.2.1), splitFields_plain _ _ _ (hint r.prId),
    splitFields_quoted _ _ _ htitle, splitFields_plain _ _ _ (hint r.linesAdded),
    splitFields_last _ _ (hint r.linesDeleted)]
  simp

theorem recordOfValues_encode (r : CSVRecord) (h : wellFormed r = true) :
    recordOfValues (parseLine (encodeRecord r)) = r := by
  rw [parseLine_encodeRecord r h]
  simp [recordOfValues, fieldOrEmpty, jsParseIntOr0_intChars]

/-! ### The amended codec round-trip -/

theorem parseCSVLine_encode (r : CSVRecord) (h : wellFormed r = true) :
    parseCSVLine (encodeRecord r) = some r := by
  have hlen : 5 ≤ (parseLine (encodeRecord r)).length := by
    simp [parseLine_encodeRecord r h]
  show (if 5 ≤ (parseLine (encodeRecord r)).length
    then some (recordOfValues (parseLine (encodeRecord r))) else none) = some r
  rw [if_pos hlen, recordOfValues_encode r h]

/-- C1 (amended): the decoder strips double quotes from titles, so the
round-trip law holds for record sets whose section-3 fields additionally
keep the title free of double quotes; commas in titles (and every other
section-3 field shape) round-trip exactly, field by field. -/
theorem c1_roundtrip_amended (rs : List CSVRecord) (h : ∀ r ∈ rs, wellFormed r = true) :
    parseCSV (encodeCSV rs) = rs := by
  rw [parseCSV, trim_encodeCSV, splitNL_encodeCSV rs h]
  show (rs.map encodeRecord).filterMap parseCSVLine = rs
  induction rs with
  | nil => rfl
  | cons r rs ih =>
    have hr : wellFormed r = true := h r (List.mem_cons_self r rs)
    have hrest : ∀ x ∈ rs, wellFormed x = true :=
      fun x hx => h x (List.mem_cons_of_mem r hx)
    rw [List.map_cons, List.filterMap_cons_some (parseCSVLine_encode r hr), ih hrest]

/-- C1 counterexample: a record whose title contains a double quote does
not survive the encode/decode round trip — parseCSV toggles the
in-quotes flag on each quote character and drops it, so the doubled
quote written by the encoder decodes to no character at all. -/
theorem c1_quote_counterexample : parseCSV (encodeCSV [badRecord]) ≠ [badRecord] := by
  decide

/-- C1 witness: two well-formed records, one with a comma inside its
title, round-trip exactly. -/
theorem c1_roundtrip_witness :
    (∀ r ∈ sampleRecords, wellFormed r = true)
      ∧ parseCSV (encodeCSV sampleRecords) = sampleRecords :=
  ⟨by decide, c1_roundtrip_amended sampleRecords (by decide)⟩

/-! ### Lemmas: the change-stats fold -/

theorem commitFold (commits : List (Option (Option ChangeCounts))) (a b : Nat) :
    commits.foldl commitStep (a, b)
      = (a + (commits.map commitAdded).sum, b + (commits.map commitDeleted).sum) := by
  induction commits generalizing a b with
  | nil => simp
  | cons c cs ih =>
    rw [List.foldl_cons, List.map_cons, List.map_cons]
    match c with
    | none =>
      rw [show commitStep (a, b) none = (a, b) from rfl, ih]
      simp [commitAdded, commitDeleted]
    | some none =>
      rw [show commitStep (a, b) (some none) = (a, b) from rfl, ih]
      simp [commitAdded, commitDeleted]
    | some (some cc) =>
      rw [show commitStep (a, b) (some (some cc))
          = (a + ((cc.addCount.getD 0) * 50 + (cc.editCount.getD 0) * 15),
             b + ((cc.deleteCount.getD 0) * 30 + (cc.editCount.getD 0) * 5)) from rfl, ih]
      simp [commitAdded, commitDeleted]
      omega

/-! ### Lemmas: the pagination loop -/

theorem paginateRun_spec (top : Nat) (cutoff : Int) (pages : List (List UpstreamPR))
    (htop : 0 < top) (hlen : ∀ p ∈ pages, p.length ≤ top) :
    (paginateRun top cutoff pages).1
        = (pages.takeWhile (fun p => p.length == top)).length + 1
      ∧ (paginateRun top cutoff pages).2
        = pageEmits cutoff (scannedPages top pages).flatten := by
  induction pages with
  | nil => simp [paginateRun, scannedPages, pageEmits]
  | cons page rest ih =>
    by_cases h0 : page.length = 0
    · have h1 : (page.length == top) = false := by
        simp [h0]
        omega
      simp [paginateRun, scannedPages, h0, h1, pageEmits, List.takeWhile_cons]
      omega
    · by_cases hshort : page.length < top
      · have h1 : (page.length == top) = false := by
          simp
          omega
        simp [paginateRun, scannedPages, h0, hshort, h1, List.takeWhile_cons]
      · have heq : (page.length == top) = true := by
          have := hlen page (List.mem_cons_self page rest)
          simp
          omega
        have hrest := ih (fun p hp => hlen p (List.mem_cons_of_mem page hp))
        simp [paginateRun, scannedPages, h0, hshort, heq, List.takeWhile_cons,
          pageEmits, List.filter_append, hrest.1, hrest.2]

theorem threePages_bounded : ∀ p ∈ threePages, p.length ≤ 1000 := by
  intro p hp
  rw [threePages] at hp
  rcases List.mem_cons.mp hp with h1 | h1
  · subst h1
    rw [List.length_replicate]
  rcases List.mem_cons.mp h1 with h1 | h1
  · subst h1
    rw [List.length_replicate]
  rcases List.mem_cons.mp h1 with h1 | h1
  · subst h1
    rw [List.length_replicate]
    omega
  · simp at h1

theorem threePages_count :
    (threePages.takeWhile (fun p => p.length == 1000)).length + 1 = 3 := by
  rw [threePages, List.takeWhile_cons]
  norm_num [List.length_replicate, List.takeWhile_cons]

theorem pageEmits_dates (cutoff : Int) (l : List UpstreamPR) :
    ∀ pr ∈ pageEmits cutoff l, ∃ d, pr.closedDate = some d ∧ cutoff ≤ d := by
  intro pr hpr
  have := List.mem_filter.mp hpr
  rcases hd : pr.closedDate with _ | d
  · rw [hd] at this
    simp at this
  · refine ⟨d, rfl, ?_⟩
    have h2 := this.2
    rw [hd] at h2
    simpa using h2

/-- C3: the paginator fetches pages until the first empty or short page
inclusive (fed sizes [1000, 1000, 400] with page size 1000 it issues
exactly 3 fetches), and it emits exactly the items of the scanned pages
that carry a completion date on or after the cutoff — the date filter is
applied per record, independent of page position, and items lacking a
completion date are discarded. -/
theorem c3_pagination (top : Nat) (cutoff : Int) (pages : List (List UpstreamPR))
    (htop : 0 < top) (hlen : ∀ p ∈ pages, p.length ≤ top) :
    ((paginateRun top cutoff pages).1
        = (pages.takeWhile (fun p => p.length == top)).length + 1
      ∧ (paginateRun top cutoff pages).2
        = pageEmits cutoff (scannedPages top pages).flatten
      ∧ ∀ pr ∈ (paginateRun top cutoff pages).2,
          ∃ d, pr.closedDate = some d ∧ cutoff ≤ d)
    ∧ (paginateRun 1000 0 threePages).1 = 3 := by
  have hs := paginateRun_spec top cutoff pages htop hlen
  refine ⟨⟨hs.1, hs.2, ?_⟩, ?_⟩
  · rw [hs.2]
    exact pageEmits_dates cutoff _
  · have h := paginateRun_spec 1000 0 threePages (by norm_num) threePages_bounded
    rw [h.1]
    exact threePages_count

/-- C3 witness: the general characterization applied to the concrete
three-page scenario. -/
theorem c3_pagination_witness :
    (0 < 1000 ∧ ∀ p ∈ threePages, p.length ≤ 1000)
      ∧ (paginateRun 1000 0 threePages).1
          = (threePages.takeWhile (fun p => p.length == 1000)).length + 1 :=
  ⟨⟨by norm_num, threePages_bounded⟩,
    (c3_pagination 1000 0 threePages (by norm_num) threePages_bounded).1.1⟩

/-- C7: the change-stats estimator returns, over the commits of the PR,
added = sum of adds*50 + edits*15 and deleted = sum of deletes*30 +
edits*5, where a commit whose detail fetch failed (or which has no
changeCounts) contributes zero without aborting, and a failed commit
listing yields (0, 0). -/
theorem c7_change_stats :
    getPRChangeStats none = (0, 0)
      ∧ ∀ commits, getPRChangeStats (some commits)
          = ((commits.map commitAdded).sum, (commits.map commitDeleted).sum) := by
  refine ⟨rfl, fun commits => ?_⟩
  rw [getPRChangeStats, commitFold]
  simp

/-- C6: with a window size of at most one the moving average is the
identity on the series. -/
theorem c6_identity (data : List ℚ) (windowSize : Int) (h : windowSize ≤ 1) :
    calculateMovingAverage data windowSize = data := by
  rw [calculateMovingAverage, if_pos h]

/-- C6 witness: the identity at window size one on a concrete series. -/
theorem c6_identity_witness :
    (1 : Int) ≤ 1 ∧ calculateMovingAverage [5, 7, 11] 1 = [5, 7, 11] :=
  ⟨le_refl 1, c6_identity [5, 7, 11] 1 (le_refl 1)⟩

theorem removeOutliers_eq_filter (records : List PRRecord) (p : F64)
    (h : records ≠ []) (hidx : 0 ≤ pctIndex records.length p) :
    removeOutliers records p
      = some (records.filter (fun r => totalLines r ≤ totalLines
          ((List.insertionSort (fun a b => totalLines a ≤ totalLines b) records).getD
            (min (pctIndex records.length p) ((records.length : Int) - 1)).toNat
            default))) := by
  have hne : ¬records.length = 0 := fun hc => h (List.length_eq_zero.mp hc)
  have hpos : 0 < records.length := List.length_pos.mpr h
  rw [removeOutliers, if_neg hne]
  show (if min (pctIndex (List.insertionSort
        (fun a b => totalLines a ≤ totalLines b) records).length p)
        (((List.insertionSort
          (fun a b => totalLines a ≤ totalLines b) records).length : Int) - 1) < 0
      then none
      else some (records.filter (fun r => totalLines r ≤ totalLines
        ((List.insertionSort (fun a b => totalLines a ≤ totalLines b) records).getD
          (min (pctIndex (List.insertionSort
              (fun a b => totalLines a ≤ totalLines b) records).length p)
            (((List.insertionSort
              (fun a b => totalLines a ≤ totalLines b) records).length : Int) - 1)).toNat
          default)))) = _
  rw [(List.perm_insertionSort (fun a b => totalLines a ≤ totalLines b) records).length_eq]
  rw [if_neg (by omega)]

theorem hundredRecords_length : hundredRecords.length = 100 := by decide

set_option maxRecDepth 100000 in
/-- C4 counterexample: the claim computes the threshold index with the
exact floor(n * p / 100); the program computes it in binary64, where
100 * (29 / 100) is 28.999999999999996 whose floor is 28, not 29.  On
the hundred records with totals 1..100 at percentile 29 the program
keeps the 29 records with totalLines at most 29, while the claimed
exact-arithmetic characterization names index 29 (threshold 30) and
keeps 30 records. -/
theorem c4_float_counterexample :
    removeOutliers hundredRecords (f64OfInt 29)
      ≠ some (hundredRecords.filter (fun r => totalLines r ≤ totalLines
          ((List.insertionSort
              (fun a b => totalLines a ≤ totalLines b) hundredRecords).getD
            (min (⌊(hundredRecords.length : ℚ) * ((29 : ℚ) / 100)⌋).toNat
              (hundredRecords.length - 1)) default))) := by
  rw [hundredRecords_length]
  have hfloor : (⌊((100 : Nat) : ℚ) * ((29 : ℚ) / 100)⌋).toNat = 29 := by
    norm_num
    rfl
  rw [hfloor]
  decide

set_option maxRecDepth 100000 in
/-- C4 (amended): removeOutliers keeps, in original order, exactly the
records whose totalLines is at most the value found at index
min(floor64(n * (p / 100)), n - 1) of the stable ascending sort by
totalLines — floor64 being the program's binary64 index computation —
whenever that index is nonnegative; on one hundred records with totals
1..100 and p = 99 the binary64 index is 99, the threshold is the
maximum, and nothing is removed. -/
theorem c4_outlier_threshold :
    (∀ (records : List PRRecord) (p : F64), records ≠ [] →
      0 ≤ pctIndex records.length p →
      removeOutliers records p
        = some (records.filter (fun r => totalLines r ≤ totalLines
            ((List.insertionSort (fun a b => totalLines a ≤ totalLines b) records).getD
              (min (pctIndex records.length p) ((records.length : Int) - 1)).toNat
              default))))
    ∧ removeOutliers hundredRecords (f64OfInt 99) = some hundredRecords := by
  refine ⟨removeOutliers_eq_filter, ?_⟩
  decide

set_option maxRecDepth 100000 in
/-- C4 witness: the binary64 threshold characterization applied to the
hundred concrete records at percentile 40. -/
theorem c4_outlier_threshold_witness :
    (hundredRecords ≠ [] ∧ 0 ≤ pctIndex hundredRecords.length (f64OfInt 40))
      ∧ removeOutliers hundredRecords (f64OfInt 40)
        = some (hundredRecords.filter (fun r => totalLines r ≤ totalLines
            ((List.insertionSort
                (fun a b => totalLines a ≤ totalLines b) hundredRecords).getD
              (min (pctIndex hundredRecords.length (f64OfInt 40))
                ((hundredRecords.length : Int) - 1)).toNat default))) :=
  ⟨⟨by decide, by decide⟩,
    c4_outlier_threshold.1 hundredRecords (f64OfInt 40) (by decide) (by decide)⟩

set_option maxRecDepth 100000 in
/-- C10 counterexample: at a negative percentile the clamped index
stays negative, the source reads sorted[index].totalLines of an
undefined element and throws a TypeError instead of returning any
list; the crash is the none of the model, refuting the unrestricted
any-percentile claim. -/
theorem c10_negative_counterexample :
    removeOutliers oneRecord (f64OfInt (-50)) = none := by decide

/-- C10 (amended): removeOutliers maps the empty list to itself, and a
non-empty list — whenever the binary64 percentile index is nonnegative,
the source throwing a TypeError otherwise — to a non-empty subsequence
of it (order preserved, nothing duplicated): the record supplying the
threshold value always passes the at-most-threshold filter. -/
theorem c10_nonempty_sublist (records : List PRRecord) (p : F64) :
    removeOutliers [] p = some []
      ∧ (records ≠ [] → 0 ≤ pctIndex records.length p →
          ∃ out, removeOutliers records p = some out
            ∧ out.Sublist records ∧ out ≠ []) := by
  refine ⟨rfl, fun h hidx => ?_⟩
  refine ⟨_, removeOutliers_eq_filter records p h hidx,
    List.filter_sublist records, ?_⟩
  have hlen : (List.insertionSort
      (fun a b => totalLines a ≤ totalLines b) records).length = records.length :=
    (List.perm_insertionSort _ records).length_eq
  have hpos : 0 < records.length := List.length_pos.mpr h
  set idx := (min (pctIndex records.length p) ((records.length : Int) - 1)).toNat
    with hidxdef
  have hlt : idx < (List.insertionSort
      (fun a b => totalLines a ≤ totalLines b) records).length := by
    rw [hlen]
    omega
  set e := (List.insertionSort
    (fun a b => totalLines a ≤ totalLines b) records).getD idx default with he
  have hmem : e ∈ records := by
    apply (List.perm_insertionSort
      (fun a b => totalLines a ≤ totalLines b) records).mem_iff.mp
    rw [he, List.getD_eq_getElem _ _ hlt]
    exact List.getElem_mem hlt
  apply List.ne_nil_of_mem (a := e)
  apply List.mem_filter.mpr
  exact ⟨hmem, by simp⟩

set_option maxRecDepth 100000 in
/-- C10 witness: the subsequence and non-emptiness facts at a concrete
one-record input and an ordinary percentile. -/
theorem c10_nonempty_sublist_witness :
    (oneRecord ≠ [] ∧ 0 ≤ pctIndex oneRecord.length (f64OfInt 50))
      ∧ ∃ out, removeOutliers oneRecord (f64OfInt 50) = some out
          ∧ out.Sublist oneRecord ∧ out ≠ [] :=
  ⟨⟨by decide, by decide⟩,
    (c10_nonempty_sublist oneRecord (f64OfInt 50)).2 (by decide) (by decide)⟩

/-! ### Lemmas: association lists -/

section AList

variable {K V : Type} [DecidableEq K]

theorem alKeys_alUpdate (m : List (K × V)) (k : K) (v0 : V) (f : V → V) :
    alKeys (alUpdate m k v0 f)
      = if k ∈ alKeys m then alKeys m else alKeys m ++ [k] := by
  induction m with
  | nil => simp [alUpdate, alKeys]
  | cons e rest ih =>
    obtain ⟨k1, v⟩ := e
    rw [alUpdate]
    by_cases hk : k1 = k
    · subst hk
      simp [alKeys]
    · rw [if_neg hk]
      by_cases hmem : k ∈ alKeys rest
      · have hmem2 : k ∈ alKeys ((k1, v) :: rest) := by
          simpa [alKeys] using Or.inr hmem
        rw [show alKeys ((k1, v) :: alUpdate rest k v0 f)
            = k1 :: alKeys (alUpdate rest k v0 f) from rfl, ih, if_pos hmem,
          if_pos hmem2]
        rfl
      · have hmem2 : k ∉ alKeys ((k1, v) :: rest) := by
          simp only [alKeys, List.map_cons, List.mem_cons]
          rintro (h1 | h1)
          · exact hk h1.symm
          · exact hmem h1
        rw [show alKeys ((k1, v) :: alUpdate rest k v0 f)
            = k1 :: alKeys (alUpdate rest k v0 f) from rfl, ih, if_neg hmem,
          if_neg hmem2]
        rfl

theorem mem_alKeys_alUpdate (m : List (K × V)) (k x : K) (v0 : V) (f : V → V) :
    x ∈ alKeys (alUpdate m k v0 f) ↔ x ∈ alKeys m ∨ x = k := by
  rw [alKeys_alUpdate]
  split
  · rename_i hmem
    constructor
    · exact fun h => Or.inl h
    · rintro (h | h)
      · exact h
      · exact h ▸ hmem
  · simp

theorem nodup_alKeys_alUpdate (m : List (K × V)) (k : K) (v0 : V) (f : V → V)
    (h : (alKeys m).Nodup) : (alKeys (alUpdate m k v0 f)).Nodup := by
  rw [alKeys_alUpdate]
  split
  · exact h
  · rename_i hmem
    rw [List.nodup_append]
    exact ⟨h, List.nodup_singleton k,
      fun a ha hk2 => hmem ((List.mem_singleton.mp hk2) ▸ ha)⟩

theorem alGet_isSome_iff (m : List (K × V)) (k : K) :
    (alGet m k).isSome = true ↔ k ∈ alKeys m := by
  induction m with
  | nil => simp [alGet, alKeys]
  | cons e rest ih =>
    obtain ⟨k1, v⟩ := e
    rw [alGet]
    by_cases hk : k1 = k
    · subst hk
      simp [alKeys]
    · rw [if_neg hk]
      simp only [alKeys, List.map_cons, List.mem_cons]
      rw [ih]
      constructor
      · exact fun h => Or.inr h
      · rintro (h | h)
        · exact absurd h.symm hk
        · exact h

theorem alGet_eq_none_iff (m : List (K × V)) (k : K) :
    alGet m k = none ↔ k ∉ alKeys m := by
  rw [← alGet_isSome_iff]
  cases alGet m k <;> simp

theorem alGet_append (m1 m2 : List (K × V)) (k : K) :
    alGet (m1 ++ m2) k = (alGet m1 k).or (alGet m2 k) := by
  induction m1 with
  | nil => simp [alGet]
  | cons e rest ih =>
    obtain ⟨k1, v⟩ := e
    rw [List.cons_append, alGet, alGet]
    by_cases hk : k1 = k
    · simp [hk]
    · rw [if_neg hk, if_neg hk, ih]

theorem alGet_mem_val (m : List (K × V)) (k : K) (v : V) (h : alGet m k = some v) :
    (k, v) ∈ m := by
  induction m with
  | nil => simp [alGet] at h
  | cons e rest ih =>
    obtain ⟨k1, w⟩ := e
    rw [alGet] at h
    by_cases hk : k1 = k
    · rw [if_pos hk] at h
      subst hk
      cases h
      exact List.mem_cons_self _ _
    · rw [if_neg hk] at h
      exact List.mem_cons_of_mem _ (ih h)

end AList

/-! ### Lemmas: the gap fill -/

section Fill

variable {V : Type}

/-- One step of the fill fold. -/
theorem fillStep_cases (zero : V) (acc : List (Nat × V)) (d : Nat) :
    (if (alGet acc d).isSome then acc else acc ++ [(d, zero)]) = acc
      ∨ ((if (alGet acc d).isSome then acc else acc ++ [(d, zero)])
          = acc ++ [(d, zero)] ∧ d ∉ alKeys acc) := by
  split
  · exact Or.inl rfl
  · rename_i hno
    refine Or.inr ⟨rfl, ?_⟩
    rw [← alGet_isSome_iff]
    simpa using hno

theorem mem_alKeys_fillFold (zero : V) (ds : List Nat) (m : List (Nat × V)) (x : Nat) :
    x ∈ alKeys (ds.foldl
        (fun acc d => if (alGet acc d).isSome then acc else acc ++ [(d, zero)]) m)
      ↔ x ∈ alKeys m ∨ x ∈ ds := by
  induction ds generalizing m with
  | nil => simp
  | cons d ds ih =>
    rw [List.foldl_cons, ih]
    have : x ∈ alKeys (if (alGet m d).isSome then m else m ++ [(d, zero)])
        ↔ x ∈ alKeys m ∨ x = d := by
      split
      · rename_i hyes
        rw [alGet_isSome_iff] at hyes
        constructor
        · exact fun h => Or.inl h
        · rintro (h | h)
          · exact h
          · exact h ▸ hyes
      · simp [alKeys]
    rw [this]
    simp [List.mem_cons]
    tauto

theorem nodup_alKeys_fillFold (zero : V) (ds : List Nat) (m : List (Nat × V))
    (h : (alKeys m).Nodup) :
    (alKeys (ds.foldl
        (fun acc d => if (alGet acc d).isSome then acc else acc ++ [(d, zero)]) m)).Nodup := by
  induction ds generalizing m with
  | nil => exact h
  | cons d ds ih =>
    rw [List.foldl_cons]
    apply ih
    rcases fillStep_cases zero m d with hc | ⟨hc, hd⟩
    · rw [hc]
      exact h
    · have hkeys : alKeys (m ++ [(d, zero)]) = alKeys m ++ [d] := by
        simp [alKeys]
      rw [hc, hkeys, List.nodup_append]
      exact ⟨h, List.nodup_singleton d,
        fun a ha hk2 => hd ((List.mem_singleton.mp hk2) ▸ ha)⟩

theorem alGet_fillFold_some (zero : V) (ds : List Nat) (m : List (Nat × V))
    (k : Nat) (v : V) (h : alGet m k = some v) :
    alGet (ds.foldl
        (fun acc d => if (alGet acc d).isSome then acc else acc ++ [(d, zero)]) m) k
      = some v := by
  induction ds generalizing m with
  | nil => exact h
  | cons d ds ih =>
    rw [List.foldl_cons]
    apply ih
    rcases fillStep_cases zero m d with hc | ⟨hc, _⟩
    · rw [hc]
      exact h
    · rw [hc, alGet_append, h]
      rfl

theorem alGet_fillFold_zero (zero : V) (ds : List Nat) (m : List (Nat × V))
    (k : Nat) (hk : alGet m k = none) (hmem : k ∈ ds) :
    alGet (ds.foldl
        (fun acc d => if (alGet acc d).isSome then acc else acc ++ [(d, zero)]) m) k
      = some zero := by
  induction ds generalizing m with
  | nil => simp at hmem
  | cons d ds ih =>
    rw [List.foldl_cons]
    by_cases hdk : k = d
    · subst hdk
      have hno : ¬(alGet m k).isSome = true := by
        rw [hk]
        simp
      rw [if_neg hno]
      apply alGet_fillFold_some
      rw [alGet_append, hk]
      rw [show alGet [(k, zero)] k = some zero from by rw [alGet, if_pos rfl]]
      rfl
    · have hmem2 : k ∈ ds := by
        rcases List.mem_cons.mp hmem with h1 | h1
        · exact absurd h1 hdk
        · exact h1
      rcases fillStep_cases zero m d with hc | ⟨hc, _⟩
      · rw [hc]
        exact ih m hk hmem2
      · rw [hc]
        apply ih
        · rw [alGet_append, hk]
          rw [show alGet [(d, zero)] k = none from by
            rw [alGet, if_neg (Ne.symm hdk)]
            rfl]
          rfl
        · exact hmem2

end Fill

/-! ### Lemmas: list minima and maxima -/

theorem foldl_min_le_init (xs : List Nat) (x : Nat) : xs.foldl min x ≤ x := by
  induction xs generalizing x with
  | nil => exact le_refl x
  | cons y ys ih => exact le_trans (ih (min x y)) (min_le_left x y)

theorem foldl_min_le_mem (xs : List Nat) (x a : Nat) (ha : a ∈ xs) :
    xs.foldl min x ≤ a := by
  induction xs generalizing x with
  | nil => simp at ha
  | cons y ys ih =>
    rcases List.mem_cons.mp ha with h1 | h1
    · subst h1
      exact le_trans (foldl_min_le_init ys (min x a)) (min_le_right x a)
    · exact ih (min x y) h1

theorem foldl_min_mem (xs : List Nat) (x : Nat) : xs.foldl min x ∈ x :: xs := by
  induction xs generalizing x with
  | nil => exact List.mem_cons_self x []
  | cons y ys ih =>
    have h := ih (min x y)
    rcases List.mem_cons.mp h with h1 | h1
    · rcases min_choice x y with hc | hc
      · rw [List.foldl_cons, h1, hc]
        exact List.mem_cons_self x (y :: ys)
      · rw [List.foldl_cons, h1, hc]
        exact List.mem_cons_of_mem x (List.mem_cons_self y ys)
    · exact List.mem_cons_of_mem x (List.mem_cons_of_mem y h1)

theorem foldl_max_init_le (xs : List Nat) (x : Nat) : x ≤ xs.foldl max x := by
  induction xs generalizing x with
  | nil => exact le_refl x
  | cons y ys ih => exact le_trans (le_max_left x y) (ih (max x y))

theorem foldl_max_mem_le (xs : List Nat) (x a : Nat) (ha : a ∈ xs) :
    a ≤ xs.foldl max x := by
  induction xs generalizing x with
  | nil => simp at ha
  | cons y ys ih =>
    rcases List.mem_cons.mp ha with h1 | h1
    · subst h1
      exact le_trans (le_max_right x a) (foldl_max_init_le ys (max x a))
    · exact ih (max x y) h1

theorem foldl_max_mem (xs : List Nat) (x : Nat) : xs.foldl max x ∈ x :: xs := by
  induction xs generalizing x with
  | nil => exact List.mem_cons_self x []
  | cons y ys ih =>
    have h := ih (max x y)
    rcases List.mem_cons.mp h with h1 | h1
    · rcases max_choice x y with hc | hc
      · rw [List.foldl_cons, h1, hc]
        exact List.mem_cons_self x (y :: ys)
      · rw [List.foldl_cons, h1, hc]
        exact List.mem_cons_of_mem x (List.mem_cons_self y ys)
    · exact List.mem_cons_of_mem x (List.mem_cons_of_mem y h1)

theorem listMin_le (l : List Nat) (a : Nat) (ha : a ∈ l) : listMin l ≤ a := by
  cases l with
  | nil => simp at ha
  | cons x xs =>
    rcases List.mem_cons.mp ha with h1 | h1
    · subst h1
      exact foldl_min_le_init xs a
    · exact foldl_min_le_mem xs x a h1

theorem listMin_mem (l : List Nat) (hne : l ≠ []) : listMin l ∈ l := by
  cases l with
  | nil => exact absurd rfl hne
  | cons x xs => exact foldl_min_mem xs x

theorem le_listMax (l : List Nat) (a : Nat) (ha : a ∈ l) : a ≤ listMax l := by
  cases l with
  | nil => simp at ha
  | cons x xs =>
    rcases List.mem_cons.mp ha with h1 | h1
    · subst h1
      exact foldl_max_init_le xs a
    · exact foldl_max_mem_le xs x a h1

theorem listMax_mem (l : List Nat) (hne : l ≠ []) : listMax l ∈ l := by
  cases l with
  | nil => exact absurd rfl hne
  | cons x xs => exact foldl_max_mem xs x

theorem listMin_unique (l : List Nat) (x : Nat) (hx : x ∈ l)
    (hle : ∀ a ∈ l, x ≤ a) : listMin l = x :=
  le_antisymm (listMin_le l x hx) (hle _ (listMin_mem l (List.ne_nil_of_mem hx)))

theorem listMax_unique (l : List Nat) (x : Nat) (hx : x ∈ l)
    (hle : ∀ a ∈ l, a ≤ x) : listMax l = x :=
  le_antisymm (hle _ (listMax_mem l (List.ne_nil_of_mem hx)))
    (le_listMax l x hx)

theorem listMin_congr (l1 l2 : List Nat) (h : ∀ x, x ∈ l1 ↔ x ∈ l2)
    (h2 : l2 ≠ []) : listMin l1 = listMin l2 :=
  listMin_unique l1 (listMin l2) ((h _).mpr (listMin_mem l2 h2))
    (fun a ha => listMin_le l2 a ((h a).mp ha))

theorem listMax_congr (l1 l2 : List Nat) (h : ∀ x, x ∈ l1 ↔ x ∈ l2)
    (h2 : l2 ≠ []) : listMax l1 = listMax l2 :=
  listMax_unique l1 (listMax l2) ((h _).mpr (listMax_mem l2 h2))
    (fun a ha => le_listMax l2 a ((h a).mp ha))

theorem listMin_le_listMax (l : List Nat) (hne : l ≠ []) : listMin l ≤ listMax l :=
  le_trans (listMin_le l _ (listMax_mem l hne)) (le_refl _)

/-! ### Lemmas: heads and last elements of sorted lists -/

theorem sorted_headD_eq_listMin (l : List Nat) (hs : List.Sorted (· ≤ ·) l)
    (hne : l ≠ []) : l.headD 0 = listMin l := by
  cases l with
  | nil => exact absurd rfl hne
  | cons x xs =>
    refine (listMin_unique (x :: xs) x (List.mem_cons_self x xs) ?_).symm
    intro a ha
    rcases List.mem_cons.mp ha with h1 | h1
    · exact h1 ▸ le_refl x
    · exact List.rel_of_sorted_cons hs a h1

theorem getLastD_mem_of_ne_nil {α : Type} (l : List α) (d : α) (hne : l ≠ []) :
    l.getLastD d ∈ l := by
  induction l generalizing d with
  | nil => exact absurd rfl hne
  | cons x xs ih =>
    by_cases hxs : xs = []
    · subst hxs
      rw [List.getLastD_cons]
      exact List.mem_cons_self x []
    · rw [List.getLastD_cons]
      exact List.mem_cons_of_mem x (ih x hxs)

theorem getLastD_irrel {α : Type} (l : List α) (d1 d2 : α) (hne : l ≠ []) :
    l.getLastD d1 = l.getLastD d2 := by
  cases l with
  | nil => exact absurd rfl hne
  | cons x xs => rw [List.getLastD_cons, List.getLastD_cons]

theorem le_sorted_getLastD (l : List Nat) (hs : List.Sorted (· ≤ ·) l) :
    ∀ a ∈ l, a ≤ l.getLastD 0 := by
  induction l with
  | nil =>
    intro a ha
    simp at ha
  | cons x xs ih =>
    intro a ha
    by_cases hxs : xs = []
    · subst hxs
      rcases List.mem_cons.mp ha with h1 | h1
      · exact h1 ▸ le_refl x
      · simp at h1
    · have htail : List.Sorted (· ≤ ·) xs := hs.of_cons
      have hlast : (x :: xs).getLastD 0 = xs.getLastD 0 := by
        rw [List.getLastD_cons]
        exact getLastD_irrel xs x 0 hxs
      rw [hlast]
      rcases List.mem_cons.mp ha with h1 | h1
      · subst h1
        exact List.rel_of_sorted_cons hs _ (getLastD_mem_of_ne_nil xs 0 hxs)
      · exact ih htail a h1

theorem sorted_getLastD_eq_listMax (l : List Nat) (hs : List.Sorted (· ≤ ·) l)
    (hne : l ≠ []) : l.getLastD 0 = listMax l :=
  (listMax_unique l (l.getLastD 0) (getLastD_mem_of_ne_nil l 0 hne)
    (le_sorted_getLastD l hs)).symm

/-! ### Lemmas: the filled day map -/

section FilledOf

variable {V : Type}

theorem mem_alKeys_fillDays (zero : V) (m : List (Nat × V)) (lo hi x : Nat) :
    x ∈ alKeys (fillDays zero m lo hi)
      ↔ x ∈ alKeys m ∨ x ∈ List.range' lo (hi + 1 - lo) := by
  rw [fillDays]
  exact mem_alKeys_fillFold zero _ m x

theorem nodup_alKeys_fillDays (zero : V) (m : List (Nat × V)) (lo hi : Nat)
    (h : (alKeys m).Nodup) : (alKeys (fillDays zero m lo hi)).Nodup := by
  rw [fillDays]
  exact nodup_alKeys_fillFold zero _ m h

theorem alGet_fillDays_zero (zero : V) (m : List (Nat × V)) (lo hi k : Nat)
    (hk : alGet m k = none) (hmem : k ∈ List.range' lo (hi + 1 - lo)) :
    alGet (fillDays zero m lo hi) k = some zero := by
  rw [fillDays]
  exact alGet_fillFold_zero zero _ m k hk hmem

theorem filledOf_eq_of_lt (zero : V) (m : List (Nat × V))
    (h : 1 < (List.insertionSort (· ≤ ·) (alKeys m)).length) :
    filledOf zero m
      = fillDays zero m ((List.insertionSort (· ≤ ·) (alKeys m)).headD 0)
          ((List.insertionSort (· ≤ ·) (alKeys m)).getLastD 0) := by
  simp only [filledOf]
  rw [if_pos h]

theorem filledOf_eq_of_le (zero : V) (m : List (Nat × V))
    (h : ¬1 < (List.insertionSort (· ≤ ·) (alKeys m)).length) :
    filledOf zero m = m := by
  simp only [filledOf]
  rw [if_neg h]

theorem filledOf_spec (zero : V) (m : List (Nat × V)) (dates : List Nat)
    (hmem : ∀ x, x ∈ alKeys m ↔ x ∈ dates) (hnodup : (alKeys m).Nodup)
    (hne : dates ≠ []) :
    (List.insertionSort (· ≤ ·) (alKeys (filledOf zero m))
        = List.range' (listMin dates) (listMax dates + 1 - listMin dates))
      ∧ ∀ d, listMin dates ≤ d → d ≤ listMax dates → d ∉ dates →
          alGet (filledOf zero m) d = some zero := by
  have hperm0 : (List.insertionSort (· ≤ ·) (alKeys m)).Perm (alKeys m) :=
    List.perm_insertionSort _ _
  have hsorted0 : List.Sorted (· ≤ ·) (List.insertionSort (· ≤ ·) (alKeys m)) :=
    List.sorted_insertionSort _ _
  have hmem0 : ∀ x, x ∈ List.insertionSort (· ≤ ·) (alKeys m) ↔ x ∈ dates :=
    fun x => (hperm0.mem_iff).trans (hmem x)
  have hne0 : List.insertionSort (· ≤ ·) (alKeys m) ≠ [] := by
    intro hcon
    obtain ⟨a, ha⟩ := List.exists_mem_of_ne_nil dates hne
    have hm : a ∈ List.insertionSort (· ≤ ·) (alKeys m) := (hmem0 a).mpr ha
    rw [hcon] at hm
    simp at hm
  have hlo : (List.insertionSort (· ≤ ·) (alKeys m)).headD 0 = listMin dates := by
    rw [sorted_headD_eq_listMin _ hsorted0 hne0]
    exact listMin_congr _ dates hmem0 hne
  have hhi : (List.insertionSort (· ≤ ·) (alKeys m)).getLastD 0 = listMax dates := by
    rw [sorted_getLastD_eq_listMax _ hsorted0 hne0]
    exact listMax_congr _ dates hmem0 hne
  have hlohi : listMin dates ≤ listMax dates := listMin_le_listMax dates hne
  by_cases hlen : 1 < (List.insertionSort (· ≤ ·) (alKeys m)).length
  · rw [filledOf_eq_of_lt zero m hlen, hlo, hhi]
    constructor
    · apply List.eq_of_perm_of_sorted (r := (· ≤ · : Nat → Nat → Prop))
      · apply (List.perm_insertionSort _ _).trans
        apply (List.perm_ext_iff_of_nodup
          (nodup_alKeys_fillDays zero m _ _ hnodup) (List.nodup_range' _ _)).mpr
        intro x
        rw [mem_alKeys_fillDays, hmem x, List.mem_range'_1]
        constructor
        · rintro (h1 | h1)
          · have hx1 := listMin_le dates x h1
            have hx2 := le_listMax dates x h1
            exact ⟨hx1, by omega⟩
          · exact h1
        · intro h1
          right
          exact h1
      · exact List.sorted_insertionSort _ _
      · exact (List.pairwise_lt_range' _ _).imp (fun h => le_of_lt h)
    · intro d hd1 hd2 hd3
      apply alGet_fillDays_zero
      · rw [alGet_eq_none_iff]
        intro hcon
        exact hd3 ((hmem d).mp hcon)
      · rw [List.mem_range'_1]
        omega
  · rw [filledOf_eq_of_le zero m hlen]
    have hlen1 : (List.insertionSort (· ≤ ·) (alKeys m)).length = 1 := by
      have hpos : 0 < (List.insertionSort (· ≤ ·) (alKeys m)).length :=
        List.length_pos.mpr hne0
      omega
    obtain ⟨a, ha⟩ := List.length_eq_one.mp hlen1
    have hmema : ∀ x, x ∈ dates ↔ x = a := by
      intro x
      rw [← hmem0 x, ha, List.mem_singleton]
    have hadates : a ∈ dates := by
      obtain ⟨x, hx⟩ := List.exists_mem_of_ne_nil dates hne
      have hxa := (hmema x).mp hx
      exact hxa ▸ hx
    have hmin : listMin dates = a :=
      listMin_unique dates a hadates
        (fun b hb => le_of_eq ((hmema b).mp hb).symm)
    have hmax : listMax dates = a :=
      listMax_unique dates a hadates (fun b hb => le_of_eq ((hmema b).mp hb))
    constructor
    · rw [ha, hmin, hmax, show a + 1 - a = 1 from by omega, List.range'_one]
    · intro d hd1 hd2 hd3
      rw [hmin] at hd1
      rw [hmax] at hd2
      have hda : d = a := by omega
      exact absurd ((hmema d).mpr hda) hd3

end FilledOf

/-! ### Lemmas: keys of the aggregation folds -/

theorem velocityStep_byDay (a : VelocityAcc) (r : PRRecord) :
    (velocityStep a r).byDay
      = alUpdate a.byDay r.closedDate emptyDayCount (fun b =>
          { total := b.total + 1,
            perAuthor := alUpdate b.perAuthor r.author 0 (fun n => n + 1) }) := rfl

theorem impactStep_byDay (a : ImpactAcc) (r : PRRecord) :
    (impactStep a r).byDay
      = alUpdate a.byDay r.closedDate emptyImpactDayCount (fun b =>
          { totalAdded := b.totalAdded + r.linesAdded,
            totalDeleted := b.totalDeleted + r.linesDeleted,
            perAuthor := alUpdate b.perAuthor r.author emptyImpactPair (fun p =>
              { added := p.added + r.linesAdded,
                deleted := p.deleted + r.linesDeleted }) }) := rfl

theorem velocity_byDay_keys (rs : List PRRecord) (a : VelocityAcc) :
    (∀ x, x ∈ alKeys (rs.foldl velocityStep a).byDay
        ↔ x ∈ alKeys a.byDay ∨ x ∈ rs.map (fun r => r.closedDate))
      ∧ ((alKeys a.byDay).Nodup → (alKeys (rs.foldl velocityStep a).byDay).Nodup) := by
  induction rs generalizing a with
  | nil => simp
  | cons r rs ih =>
    rw [List.foldl_cons]
    constructor
    · intro x
      rw [(ih (velocityStep a r)).1 x, velocityStep_byDay, mem_alKeys_alUpdate,
        List.map_cons, List.mem_cons]
      tauto
    · intro hnd
      apply (ih (velocityStep a r)).2
      rw [velocityStep_byDay]
      exact nodup_alKeys_alUpdate _ _ _ _ hnd

theorem impact_byDay_keys (rs : List PRRecord) (a : ImpactAcc) :
    (∀ x, x ∈ alKeys (rs.foldl impactStep a).byDay
        ↔ x ∈ alKeys a.byDay ∨ x ∈ rs.map (fun r => r.closedDate))
      ∧ ((alKeys a.byDay).Nodup → (alKeys (rs.foldl impactStep a).byDay).Nodup) := by
  induction rs generalizing a with
  | nil => simp
  | cons r rs ih =>
    rw [List.foldl_cons]
    constructor
    · intro x
      rw [(ih (impactStep a r)).1 x, impactStep_byDay, mem_alKeys_alUpdate,
        List.map_cons, List.mem_cons]
      tauto
    · intro hnd
      apply (ih (impactStep a r)).2
      rw [impactStep_byDay]
      exact nodup_alKeys_alUpdate _ _ _ _ hnd

/-- C2: the day axes of both aggregation modes list every calendar day
from the earliest to the latest record date inclusive, in ascending
order with no omissions, and every day in that interval with no record
carries an explicit zero bucket (total 0, respectively totalAdded 0 and
totalDeleted 0). -/
theorem c2_gap_fill (rs : List PRRecord) (hne : rs ≠ []) :
    ((processData rs).days
        = List.range' (listMin (rs.map (fun r => r.closedDate)))
            (listMax (rs.map (fun r => r.closedDate)) + 1
              - listMin (rs.map (fun r => r.closedDate))))
      ∧ ((processImpactData rs).days
        = List.range' (listMin (rs.map (fun r => r.closedDate)))
            (listMax (rs.map (fun r => r.closedDate)) + 1
              - listMin (rs.map (fun r => r.closedDate))))
      ∧ ∀ d, listMin (rs.map (fun r => r.closedDate)) ≤ d →
          d ≤ listMax (rs.map (fun r => r.closedDate)) →
          (∀ r ∈ rs, r.closedDate ≠ d) →
          dayTotal (processData rs) d = 0
            ∧ impactDayAdded (processImpactData rs) d = 0
            ∧ impactDayDeleted (processImpactData rs) d = 0 := by
  have hdatesne : rs.map (fun r => r.closedDate) ≠ [] := by
    simpa using hne
  have hkeysV := velocity_byDay_keys rs ⟨[], [], [], []⟩
  have hmemV : ∀ x, x ∈ alKeys (rs.foldl velocityStep ⟨[], [], [], []⟩).byDay
      ↔ x ∈ rs.map (fun r => r.closedDate) := by
    intro x
    rw [hkeysV.1 x]
    simp [alKeys]
  have hndV : (alKeys (rs.foldl velocityStep ⟨[], [], [], []⟩).byDay).Nodup :=
    hkeysV.2 (by simp [alKeys])
  have hspecV := filledOf_spec emptyDayCount _ _ hmemV hndV hdatesne
  have hkeysI := impact_byDay_keys rs ⟨[], [], [], []⟩
  have hmemI : ∀ x, x ∈ alKeys (rs.foldl impactStep ⟨[], [], [], []⟩).byDay
      ↔ x ∈ rs.map (fun r => r.closedDate) := by
    intro x
    rw [hkeysI.1 x]
    simp [alKeys]
  have hndI : (alKeys (rs.foldl impactStep ⟨[], [], [], []⟩).byDay).Nodup :=
    hkeysI.2 (by simp [alKeys])
  have hspecI := filledOf_spec emptyImpactDayCount _ _ hmemI hndI hdatesne
  refine ⟨hspecV.1, hspecI.1, ?_⟩
  intro d h1 h2 h3
  have hd : d ∉ rs.map (fun r => r.closedDate) := by
    intro hcon
    obtain ⟨r, hr, hrd⟩ := List.mem_map.mp hcon
    exact h3 r hr hrd
  have hzV := hspecV.2 d h1 h2 hd
  have hzI := hspecI.2 d h1 h2 hd
  refine ⟨?_, ?_, ?_⟩
  · show (alGetD (filledOf emptyDayCount
        (rs.foldl velocityStep ⟨[], [], [], []⟩).byDay) d emptyDayCount).total = 0
    rw [alGetD, hzV]
    rfl
  · show (alGetD (filledOf emptyImpactDayCount
        (rs.foldl impactStep ⟨[], [], [], []⟩).byDay) d emptyImpactDayCount).totalAdded = 0
    rw [alGetD, hzI]
    rfl
  · show (alGetD (filledOf emptyImpactDayCount
        (rs.foldl impactStep ⟨[], [], [], []⟩).byDay) d emptyImpactDayCount).totalDeleted = 0
    rw [alGetD, hzI]
    rfl

/-! ### Lemmas: conservation of counts -/

/-- C2 witness: two records three days apart yield the four-day axis. -/
theorem c2_gap_fill_witness :
    gapRecords ≠ []
      ∧ (processData gapRecords).days
          = List.range' (listMin (gapRecords.map (fun r => r.closedDate)))
              (listMax (gapRecords.map (fun r => r.closedDate)) + 1
                - listMin (gapRecords.map (fun r => r.closedDate))) :=
  ⟨by decide, (c2_gap_fill gapRecords (by decide)).1⟩

/-! ### Lemmas: the moving-average window -/

theorem mem_intRange (a b x : Int) : x ∈ intRange a b ↔ a ≤ x ∧ x ≤ b := by
  rw [intRange, List.mem_map]
  constructor
  · rintro ⟨k, hk, rfl⟩
    rw [List.mem_range] at hk
    omega
  · intro h
    refine ⟨(x - a).toNat, ?_, ?_⟩
    · rw [List.mem_range]
      omega
    · omega

theorem pairwise_lt_intRange (a b : Int) : (intRange a b).Pairwise (· < ·) := by
  rw [intRange, List.pairwise_map]
  exact (List.pairwise_lt_range _).imp (fun h => by omega)

theorem windowVals_eq_spec (data : List ℚ) (half : Int) (i : Nat) :
    windowVals data half i
      = (specWindowIdx data.length half i).map (fun j => data.getD j 0) := by
  have hlist : (intRange ((i : Int) - half) ((i : Int) + half)).filter
        (fun j => 0 ≤ j ∧ j < (data.length : Int))
      = ((List.range data.length).filter
          (fun (j : Nat) => (i : Int) - half ≤ (j : Int) ∧ (j : Int) ≤ (i : Int) + half)).map
          (fun (j : Nat) => (j : Int)) := by
    apply List.eq_of_perm_of_sorted (r := (· ≤ · : Int → Int → Prop))
    · have hnd1 : ((intRange ((i : Int) - half) ((i : Int) + half)).filter
          (fun j => 0 ≤ j ∧ j < (data.length : Int))).Nodup :=
        ((pairwise_lt_intRange _ _).filter _).imp (fun h => ne_of_lt h)
      have hpair2 : (((List.range data.length).filter
          (fun (j : Nat) => (i : Int) - half ≤ (j : Int) ∧ (j : Int) ≤ (i : Int) + half)).map
          (fun (j : Nat) => (j : Int))).Pairwise (· < ·) := by
        rw [List.pairwise_map]
        exact ((List.pairwise_lt_range _).filter _).imp
          (fun h => by exact_mod_cast h)
      have hnd2 := hpair2.imp (fun h => ne_of_lt h)
      apply (List.perm_ext_iff_of_nodup hnd1 hnd2).mpr
      intro x
      rw [List.mem_filter, mem_intRange]
      simp only [List.mem_map, List.mem_filter, List.mem_range]
      constructor
      · rintro ⟨⟨h1, h2⟩, h3⟩
        simp only [decide_eq_true_eq] at h3
        refine ⟨x.toNat, ⟨by omega, ?_⟩, by omega⟩
        simp only [decide_eq_true_eq]
        constructor
        · omega
        · omega
      · rintro ⟨j, ⟨hj1, hj2⟩, rfl⟩
        simp only [decide_eq_true_eq] at hj2
        refine ⟨⟨by omega, by omega⟩, ?_⟩
        simp only [decide_eq_true_eq]
        omega
    · exact (((pairwise_lt_intRange _ _).filter _).imp (fun h => le_of_lt h))
    · exact List.pairwise_map.mpr
        (((List.pairwise_lt_range _).filter _).imp
          (fun h => by exact_mod_cast le_of_lt h))
  rw [windowVals, hlist, List.map_map, specWindowIdx]
  apply List.map_congr_left
  intro j hj
  simp [Int.toNat_natCast]

/-- C5: with window size above one the moving average has the length of
its input and its value at every index i is the arithmetic mean of the
input values at the indices within floor(windowSize/2) of i that lie in
bounds — a shrinking window at the edges (always non-empty), never
zero-padded or wrapped. -/
theorem c5_moving_average (data : List ℚ) (windowSize : Int) (hw : 1 < windowSize) :
    (calculateMovingAverage data windowSize).length = data.length
      ∧ ∀ i, i < data.length →
          0 < (specWindowIdx data.length (windowSize / 2) i).length
            ∧ (calculateMovingAverage data windowSize).getD i 0
              = ((specWindowIdx data.length (windowSize / 2) i).map
                  (fun j => data.getD j 0)).sum
                / ((specWindowIdx data.length (windowSize / 2) i).length : ℚ) := by
  have hnot : ¬windowSize ≤ 1 := by omega
  have hhalf : 0 ≤ windowSize / 2 := by omega
  constructor
  · rw [calculateMovingAverage, if_neg hnot]
    simp
  · intro i hi
    have himem : i ∈ specWindowIdx data.length (windowSize / 2) i := by
      rw [specWindowIdx, List.mem_filter]
      refine ⟨List.mem_range.mpr hi, ?_⟩
      simp only [decide_eq_true_eq]
      omega
    have hpos : 0 < (specWindowIdx data.length (windowSize / 2) i).length :=
      List.length_pos.mpr (List.ne_nil_of_mem himem)
    refine ⟨hpos, ?_⟩
    rw [calculateMovingAverage, if_neg hnot]
    have hirange : i < ((List.range data.length).map (fun i =>
        let w := windowVals data (windowSize / 2) i
        if 0 < w.length then w.sum / (w.length : ℚ) else 0)).length := by
      simpa using hi
    rw [List.getD_eq_getElem _ 0 hirange, List.getElem_map, List.getElem_range]
    show (if 0 < (windowVals data (windowSize / 2) i).length
        then (windowVals data (windowSize / 2) i).sum
          / ((windowVals data (windowSize / 2) i).length : ℚ) else 0) = _
    rw [windowVals_eq_spec data (windowSize / 2) i]
    rw [if_pos (by simpa using hpos)]
    rw [List.length_map]

/-- C5 witness: the mean formula applied to a concrete three-element
series with window size three at index one. -/
theorem c5_moving_average_witness :
    ((1 : Int) < 3 ∧ 1 < ([1, 2, 4] : List ℚ).length)
      ∧ (0 < (specWindowIdx ([1, 2, 4] : List ℚ).length ((3 : Int) / 2) 1).length
          ∧ (calculateMovingAverage [1, 2, 4] 3).getD 1 0
            = ((specWindowIdx ([1, 2, 4] : List ℚ).length ((3 : Int) / 2) 1).map
                (fun j => ([1, 2, 4] : List ℚ).getD j 0)).sum
              / ((specWindowIdx ([1, 2, 4] : List ℚ).length ((3 : Int) / 2) 1).length : ℚ)) :=
  ⟨⟨by decide, by decide⟩,
    (c5_moving_average [1, 2, 4] 3 (by decide)).2 1 (by decide)⟩

end PRStats
